import Mathlib

/-!
# Verification of the adbclone tree-sync core

A shallow embedding, in Lean 4, of the tree-synchronization core of the
`adbclone` repository (package `BetterADBSync`, with the older `ADBSync`
package alongside).  The Python data value
`Union[dict, Tuple[int, int, int], None]` used for filesystem snapshots is
embedded as `Option Tree` below: `none` is Python `None`, `Tree.file` is the
3-tuple `(atime, mtime, size)` and `Tree.dir` is an (insertion-ordered)
dictionary from names to entries.  The functions `FileSyncer.diff_trees`,
`FileSyncer.prune_tree`, `FileSyncer.remove_excluded_folders_from_unaccounted_tree`,
`FileSyncer.about_tree`, `FileSystem.remove_tree`, `FileSystem.push_tree_here`,
`AndroidFileSystem.ls_to_stat` and the unlink/rmdir wrappers are translated
function by function; exceptions (`SystemExit` via `logging_fatal`, `KeyError`,
`NotImplementedError`, `AttributeError`) become `Except` errors, and
filesystem/process effects become explicit effect lists.
-/

namespace AdbClone

/-- Python tree value: `None` is `Option.none`; a 3-tuple
`(st_atime, st_mtime, st_size)` (minute-truncated timestamps, exact size)
is `Tree.file`; a dict is `Tree.dir` with its insertion-ordered entries.
A directory's own `"."` self-entry is just an ordinary key of the dict,
exactly as in the Python code. -/
inductive Tree where
  | file (atime mtime size : Int) : Tree
  | dir (children : List (String × Option Tree)) : Tree
deriving Repr

/-- Python `dict` lookup (`d[k]` / `d.get(k)` distinction handled at use
sites): first entry with the given key, if any. -/
def alookup {α : Type} (k : String) : List (String × α) → Option α
  | [] => none
  | (k', v) :: rest => if k' = k then some v else alookup k rest

/-- Python `dict.pop(k, ...)`'s effect on the remaining entries: removes the
first entry with the given key (no-op when absent). -/
def aerase {α : Type} (k : String) : List (String × α) → List (String × α)
  | [] => []
  | (k', v) :: rest => if k' = k then rest else (k', v) :: aerase k rest

mutual

/-- Size of a tree node, used as the termination measure of the recursive
functions translated from the Python code. -/
def sizeT : Tree → Nat
  | .file _ _ _ => 1
  | .dir l => 1 + sizeL l

/-- Size of a dict's entry list. -/
def sizeL : List (String × Option Tree) → Nat
  | [] => 0
  | (_, v) :: rest => 1 + sizeO v + sizeL rest

/-- Size of an optional tree (`None` has size 0). -/
def sizeO : Option Tree → Nat
  | none => 0
  | some t => sizeT t

end

@[simp] theorem sizeT_file (a m s : Int) : sizeT (.file a m s) = 1 := by
  simp [sizeT]

@[simp] theorem sizeT_dir (l : List (String × Option Tree)) :
    sizeT (.dir l) = 1 + sizeL l := by
  simp [sizeT]

@[simp] theorem sizeL_nil : sizeL [] = 0 := by simp [sizeL]

@[simp] theorem sizeL_cons (k : String) (v : Option Tree)
    (rest : List (String × Option Tree)) :
    sizeL ((k, v) :: rest) = 1 + sizeO v + sizeL rest := by
  simp [sizeL]

@[simp] theorem sizeO_none : sizeO none = 0 := by simp [sizeO]

@[simp] theorem sizeO_some (t : Tree) : sizeO (some t) = sizeT t := by
  simp [sizeO]

theorem sizeL_aerase_le (k : String) (l : List (String × Option Tree)) :
    sizeL (aerase k l) ≤ sizeL l := by
  induction l with
  | nil => simp [aerase]
  | cons p rest ih =>
      obtain ⟨k', v⟩ := p
      by_cases h : k' = k <;> simp [aerase, h] <;> omega

theorem sizeO_alookup_le (k : String) (l : List (String × Option Tree))
    (v : Option Tree) (h : alookup k l = some v) : sizeO v ≤ sizeL l := by
  induction l with
  | nil => simp [alookup] at h
  | cons p rest ih =>
      obtain ⟨k', v'⟩ := p
      by_cases hk : k' = k
      · simp [alookup, hk] at h
        subst h
        simp
        omega
      · simp [alookup, hk] at h
        have := ih h
        simp
        omega

theorem sizeL_eraseFold_le (ks : List (String × Option Tree))
    (l : List (String × Option Tree)) :
    sizeL (ks.foldl (fun r p => aerase p.1 r) l) ≤ sizeL l := by
  induction ks generalizing l with
  | nil => simp
  | cons p rest ih =>
      calc sizeL (rest.foldl (fun r q => aerase q.1 r) (aerase p.1 l))
          ≤ sizeL (aerase p.1 l) := ih _
        _ ≤ sizeL l := sizeL_aerase_le _ _

theorem sizeO_mem_le (k : String) (v : Option Tree)
    (l : List (String × Option Tree)) (h : (k, v) ∈ l) : sizeO v ≤ sizeL l := by
  induction l with
  | nil => simp at h
  | cons p rest ih =>
      obtain ⟨k', v'⟩ := p
      rcases List.mem_cons.mp h with h1 | h2
      · obtain ⟨h1a, h1b⟩ := Prod.mk.injEq .. ▸ h1
        subst h1b
        simp
        omega
      · have := ih h2
        simp
        omega

theorem mem_aerase {α : Type} (k : String) (p : String × α)
    (l : List (String × α)) (h : p ∈ aerase k l) : p ∈ l := by
  induction l with
  | nil => simp [aerase] at h
  | cons q rest ih =>
      obtain ⟨k', v'⟩ := q
      by_cases hk : k' = k
      · simp [aerase, hk] at h
        exact List.mem_cons_of_mem _ h
      · simp [aerase, hk] at h
        rcases h with h1 | h2
        · simp [h1]
        · exact List.mem_cons_of_mem _ (ih h2)

/-! ## `fnmatch` glob matching

`diff_trees` checks each destination path against the exclusion patterns with
the standard library call `fnmatch.fnmatch(path_destination, pattern)`.  The
POSIX behaviour of that call (no case folding) is modelled here: `*` matches
any sequence, `?` any single character, `[...]`/`[!...]` a character class
with ranges (an unterminated `[` is a literal), any other character itself. -/

/-- Scan a character-class body up to the closing `]`; `none` when the class
is unterminated. Returns (class content, rest of the pattern). -/
def scanClass : List Char → Option (List Char × List Char)
  | [] => none
  | c :: t =>
      if c = ']' then some ([], t)
      else (scanClass t).map (fun p => (c :: p.1, p.2))

/-- Parse `[...]` content (the list starts just after the opening `[`):
negation flag, class content (a leading `]` is part of the content), rest. -/
def parseClass (ps : List Char) : Option (Bool × List Char × List Char) :=
  let neg : Bool := ps.head? = some '!'
  let ps1 := if ps.head? = some '!' then ps.tail else ps
  if ps1.head? = some ']' then
    (scanClass ps1.tail).map (fun p => (neg, ']' :: p.1, p.2))
  else
    (scanClass ps1).map (fun p => (neg, p.1, p.2))

/-- Does a character class body (ranges `a-b` and single characters) contain
the character? A trailing `-` is a literal. -/
def classHas : List Char → Char → Bool
  | a :: '-' :: b :: rest, c =>
      (a ≤ c && c ≤ b) || classHas rest c
  | a :: rest, c => a = c || classHas rest c
  | [], _ => false

theorem scanClass_length_lt (ps rest content : List Char)
    (h : scanClass ps = some (content, rest)) : rest.length < ps.length := by
  induction ps generalizing content with
  | nil => simp [scanClass] at h
  | cons c t ih =>
      by_cases hc : c = ']'
      · simp [scanClass, hc] at h
        simp [h.2]
      · simp [scanClass, hc] at h
        obtain ⟨p1, hs, -⟩ := h
        have := ih _ hs
        simp
        omega

theorem parseClass_length_lt (ps rest content : List Char) (neg : Bool)
    (h : parseClass ps = some (neg, content, rest)) : rest.length < ps.length + 1 := by
  unfold parseClass at h
  set ps1 := if ps.head? = some '!' then ps.tail else ps with hps1
  have hlen : ps1.length ≤ ps.length := by
    rw [hps1]
    split
    · simp [List.length_tail]
    · exact le_rfl
  by_cases hb : ps1.head? = some ']'
  · simp only [hb, if_pos rfl] at h
    simp at h
    obtain ⟨p1, p2, hs, -, -, hr⟩ := h
    have h1 := scanClass_length_lt _ _ _ hs
    have h2 : ps1.tail.length ≤ ps1.length := by
      simp [List.length_tail]
    subst hr
    omega
  · rw [if_neg hb] at h
    simp at h
    obtain ⟨hs, -⟩ := h
    have h1 := scanClass_length_lt _ _ _ hs
    omega

/-- Glob matching of a pattern against a name, as performed by
`fnmatch.fnmatch(name, pattern)` on a POSIX system: `*` matches any
(possibly empty) sequence, `?` any single character, a character class
matches per `classHas` (negated by `!`), an unterminated `[` is a literal,
and every other character matches itself. -/
def globMatch (pat name : List Char) : Bool :=
  match pat, name with
  | [], [] => true
  | [], _ :: _ => false
  | '*' :: ps, name =>
      globMatch ps name ||
        (match name with
         | [] => false
         | _ :: ns => globMatch ('*' :: ps) ns)
  | '?' :: ps, _ :: ns => globMatch ps ns
  | '?' :: _, [] => false
  | '[' :: ps, name =>
      match hpc : parseClass ps with
      | some (neg, content, rest) =>
          (match name with
           | [] => false
           | c :: ns =>
               (if neg then !(classHas content c) else classHas content c) &&
                 globMatch rest ns)
      | none =>
          (match name with
           | [] => false
           | c :: ns => (c = '[') && globMatch ps ns)
  | p :: ps, c :: ns => (p = c) && globMatch ps ns
  | _ :: _, [] => false
termination_by (pat.length, name.length)
decreasing_by
  all_goals simp_wf
  all_goals
    first
      | exact Prod.Lex.right _ (by omega)
      | exact Prod.Lex.left _ _ (by omega)
      | exact Prod.Lex.left _ _ (parseClass_length_lt _ _ _ _ hpc)
      | omega

/-- `fnmatch.fnmatch(name, pattern)` (POSIX). -/
def fnmatchB (name pattern : String) : Bool :=
  globMatch pattern.toList name.toList

/-- The exclusion test at the top of `diff_trees`: the loop over
`destination_exclude_patterns` sets `exclude` as soon as
`fnmatch.fnmatch(path_destination, destination_exclude_pattern)` holds. -/
def anyMatch (patterns : List String) (pathDestination : String) : Bool :=
  patterns.any fun pat => fnmatchB pathDestination pat

/-! ## `FileSyncer.diff_trees` (BetterADBSync/__init__.py, lines 39-305)

The five simultaneous outputs of `diff_trees` become the record `DiffOut`;
the exceptions that abort the run (`logging_fatal`, which raises
`SystemExit(1)`, on an unforced file/folder overwrite, and `KeyError` from
`d.pop(".")` / `d["."]` on a dict without a `"."` entry) become
`Except DiffAbort`. -/

/-- The five result trees of `diff_trees`, in the order they are returned. -/
structure DiffOut where
  delete : Option Tree
  copy : Option Tree
  exSrc : Option Tree
  unDst : Option Tree
  exDst : Option Tree
deriving Repr

/-- The ways `diff_trees` aborts instead of returning: `typeConflict` is the
`logging_fatal("Use --force if you are sure!")` call (which raises
`SystemExit` with exit code 1), `keyError` is a `KeyError` from `pop(".")`
or `["."]` on a dict with no `"."` entry. -/
inductive DiffAbort where
  | typeConflict (pathSource pathDestination : String) : DiffAbort
  | keyError : DiffAbort
deriving Repr

/-- `destination.pop(key, None)`'s return value: the stored value when the
key is present (that value may itself be Python `None`), else `None`. -/
def popValue (k : String) (rem : List (String × Option Tree)) : Option Tree :=
  match alookup k rem with
  | some pv => pv
  | none => none

theorem sizeO_popValue_le (k : String) (rem : List (String × Option Tree)) :
    sizeO (popValue k rem) ≤ sizeL rem := by
  unfold popValue
  cases h : alookup k rem with
  | none => simp
  | some pv => exact sizeO_alookup_le _ _ _ h

mutual

/-- `FileSyncer.diff_trees` of `BetterADBSync/__init__.py`, translated branch
by branch.  Arguments follow the Python parameter order; the mutable
`dict.pop` consumption of the Python code is rendered by threading the
remaining destination entries (`diffLoopBoth`) and computing the leftovers
with `aerase` folds. -/
def diffTrees (source destination : Option Tree)
    (pathSource pathDestination : String)
    (pats : List String) (joinS joinD : String → String → String)
    (folderFileOverwriteError : Bool) : Except DiffAbort DiffOut :=
  let exclude := anyMatch pats pathDestination
  match source, destination with
  | none, none =>
      .ok ⟨none, none, none, none, none⟩
  | none, some (.file a m s) =>
      if exclude then .ok ⟨none, none, none, none, some (.file a m s)⟩
      else .ok ⟨none, none, none, some (.file a m s), none⟩
  | none, some (.dir ld) =>
      if exclude then
        .ok ⟨some (.dir [(".", none)]), none, none,
             some (.dir [(".", none)]), some (.dir ld)⟩
      else
        match alookup "." ld with
        | none => .error .keyError
        | some dotD => do
            let rs ← diffLoopDst (aerase "." ld) pathSource pathDestination
              pats joinS joinD folderFileOverwriteError
            .ok ⟨some (.dir ((".", none) :: rs.map (fun p => (p.1, p.2.delete)))),
                 none, none,
                 some (.dir ((".", dotD) :: rs.map (fun p => (p.1, p.2.unDst)))),
                 some (.dir ((".", none) :: rs.map (fun p => (p.1, p.2.exDst))))⟩
  | some (.file a m s), none =>
      if exclude then .ok ⟨none, none, some (.file a m s), none, none⟩
      else .ok ⟨none, some (.file a m s), none, none, none⟩
  | some (.file a m s), some (.file a' m' s') =>
      if exclude then
        .ok ⟨none, none, some (.file a m s), none, some (.file a' m' s')⟩
      else if m > m' then
        .ok ⟨some (.file a' m' s'), some (.file a m s), none, none, none⟩
      else if s ≠ s' then
        -- the `elif source[2] != destination[2]` size-mismatch branch
        .ok ⟨some (.file a' m' s'), some (.file a m s), none, none, none⟩
      else
        .ok ⟨none, none, none, none, none⟩
  | some (.file a m s), some (.dir ld) =>
      if exclude then
        .ok ⟨some (.dir [(".", none)]), none, some (.file a m s),
             some (.dir [(".", none)]), some (.dir ld)⟩
      else if folderFileOverwriteError then
        .error (.typeConflict pathSource pathDestination)
      else
        .ok ⟨some (.dir ld), some (.file a m s), none,
             some (.dir [(".", none)]), some (.dir [(".", none)])⟩
  | some (.dir ls), none =>
      if exclude then
        .ok ⟨none, some (.dir [(".", none)]), some (.dir ls), none, none⟩
      else
        match alookup "." ls with
        | none => .error .keyError
        | some dotS => do
            let rs ← diffLoopSrc (aerase "." ls) pathSource pathDestination
              pats joinS joinD folderFileOverwriteError
            .ok ⟨none,
                 some (.dir ((".", dotS) :: rs.map (fun p => (p.1, p.2.copy)))),
                 some (.dir ((".", none) :: rs.map (fun p => (p.1, p.2.exSrc)))),
                 none, none⟩
  | some (.dir ls), some (.file a' m' s') =>
      -- NB: the Python code ends this arm with `excluded_destination = None`,
      -- overwriting the `excluded_destination = destination` of the excluded
      -- sub-branch.
      if exclude then
        .ok ⟨none, some (.dir [(".", none)]), some (.dir ls), none, none⟩
      else
        match alookup "." ls with
        | none => .error .keyError
        | some dotS => do
            let rs ← diffLoopSrc (aerase "." ls) pathSource pathDestination
              pats joinS joinD folderFileOverwriteError
            if folderFileOverwriteError then
              .error (.typeConflict pathSource pathDestination)
            else
              .ok ⟨some (.file a' m' s'),
                   some (.dir ((".", dotS) :: rs.map (fun p => (p.1, p.2.copy)))),
                   some (.dir ((".", none) :: rs.map (fun p => (p.1, p.2.exSrc)))),
                   none, none⟩
  | some (.dir ls), some (.dir ld) =>
      if exclude then
        .ok ⟨some (.dir [(".", none)]), some (.dir [(".", none)]),
             some (.dir ls), some (.dir [(".", none)]), some (.dir ld)⟩
      else
        match alookup "." ls with
        | none => .error .keyError
        | some _ => do
            let srcRest := aerase "." ls
            let rs1 ← diffLoopBoth srcRest ld pathSource pathDestination
              pats joinS joinD folderFileOverwriteError
            let remF := srcRest.foldl (fun r p => aerase p.1 r) ld
            match alookup "." remF with
            | none => .error .keyError
            | some _ => do
                let rs2 ← diffLoopDst (aerase "." remF) pathSource pathDestination
                  pats joinS joinD folderFileOverwriteError
                .ok ⟨some (.dir ((".", none) ::
                        (rs1.map (fun p => (p.1, p.2.delete)) ++
                         rs2.map (fun p => (p.1, p.2.delete))))),
                     some (.dir ((".", none) :: rs1.map (fun p => (p.1, p.2.copy)))),
                     some (.dir ((".", none) :: rs1.map (fun p => (p.1, p.2.exSrc)))),
                     some (.dir ((".", none) ::
                        (rs1.map (fun p => (p.1, p.2.unDst)) ++
                         rs2.map (fun p => (p.1, p.2.unDst))))),
                     some (.dir ((".", none) ::
                        (rs1.map (fun p => (p.1, p.2.exDst)) ++
                         rs2.map (fun p => (p.1, p.2.exDst)))))⟩
termination_by sizeO source + sizeO destination
decreasing_by
  all_goals simp_wf
  · have := sizeL_aerase_le "." ld
    omega
  · have := sizeL_aerase_le "." ls
    omega
  · have := sizeL_aerase_le "." ls
    omega
  · have := sizeL_aerase_le "." ls
    omega
  · have h1 := sizeL_aerase_le "."
      ((aerase "." ls).foldl (fun r p => aerase p.1 r) ld)
    have h2 := sizeL_eraseFold_le (aerase "." ls) ld
    omega

/-- The `for key, value in destination.items(): diff_trees(None, value, ...)`
loops of `diff_trees` (the source-absent directory arm and the leftover
destination loop of the dir/dir arm). -/
def diffLoopDst (children : List (String × Option Tree))
    (pathSource pathDestination : String)
    (pats : List String) (joinS joinD : String → String → String)
    (folderFileOverwriteError : Bool) :
    Except DiffAbort (List (String × DiffOut)) :=
  match children with
  | [] => .ok []
  | (k, v) :: rest => do
      let r ← diffTrees none v (joinS pathSource k) (joinD pathDestination k)
        pats joinS joinD folderFileOverwriteError
      let rs ← diffLoopDst rest pathSource pathDestination
        pats joinS joinD folderFileOverwriteError
      .ok ((k, r) :: rs)
termination_by sizeL children
decreasing_by
  all_goals simp_wf <;> omega

/-- The `for key, value in source.items(): diff_trees(value, None, ...)`
loops of `diff_trees` (the destination-absent directory arm and the
directory-over-file arm). -/
def diffLoopSrc (children : List (String × Option Tree))
    (pathSource pathDestination : String)
    (pats : List String) (joinS joinD : String → String → String)
    (folderFileOverwriteError : Bool) :
    Except DiffAbort (List (String × DiffOut)) :=
  match children with
  | [] => .ok []
  | (k, v) :: rest => do
      let r ← diffTrees v none (joinS pathSource k) (joinD pathDestination k)
        pats joinS joinD folderFileOverwriteError
      let rs ← diffLoopSrc rest pathSource pathDestination
        pats joinS joinD folderFileOverwriteError
      .ok ((k, r) :: rs)
termination_by sizeL children
decreasing_by
  all_goals simp_wf <;> omega

/-- The first loop of the dir/dir arm:
`for key, value in source.items(): diff_trees(value, destination.pop(key, None), ...)`,
threading the remaining destination entries. -/
def diffLoopBoth (srcChildren rem : List (String × Option Tree))
    (pathSource pathDestination : String)
    (pats : List String) (joinS joinD : String → String → String)
    (folderFileOverwriteError : Bool) :
    Except DiffAbort (List (String × DiffOut)) :=
  match srcChildren with
  | [] => .ok []
  | (k, v) :: rest => do
      let r ← diffTrees v (popValue k rem) (joinS pathSource k)
        (joinD pathDestination k) pats joinS joinD folderFileOverwriteError
      let rs ← diffLoopBoth rest (aerase k rem) pathSource pathDestination
        pats joinS joinD folderFileOverwriteError
      .ok ((k, r) :: rs)
termination_by sizeL srcChildren + sizeL rem
decreasing_by
  all_goals simp_wf
  · rename_i k
    have := sizeO_popValue_le k rem
    omega
  · rename_i k
    have := sizeL_aerase_le k rem
    omega

end

/-! ## `FileSyncer.prune_tree` (BetterADBSync/__init__.py, lines 330-341) -/

mutual

/-- `FileSyncer.prune_tree`: "Remove all Nones from a tree. May return None
if tree is None however."  A non-dict (None or tuple) is returned unchanged;
for a dict the pruned non-None children are kept and, per the Python
`return return_dict or None`, an empty result dict becomes None. -/
def pruneTree : Option Tree → Option Tree
  | none => none
  | some (.file a m s) => some (.file a m s)
  | some (.dir l) =>
      match pruneChildren l with
      | [] => none
      | l' => some (.dir l')

/-- The `for key, value in tree.items()` loop of `prune_tree`: keep each
entry whose pruned value is not None. -/
def pruneChildren : List (String × Option Tree) → List (String × Option Tree)
  | [] => []
  | (k, v) :: rest =>
      match pruneTree v with
      | none => pruneChildren rest
      | some t => (k, some t) :: pruneChildren rest

end

/-! ## Paths and classification outcomes

A concrete path is a list of names descending through directory entries.
`lookupPath` finds the entry at a path; `outcome` says whether the entry at a
path is actually classified to a partition tree: a file entry is, and a
directory entry is exactly when its `"."` self-entry carries a (non-None)
timestamp tuple — that is the convention the executors use (`remove_tree`
removes a folder iff the popped `"."` value is truthy, `push_tree_here`
creates one iff `"."` is present). -/

/-- Follow a path through directory entries. -/
def lookupPath : Option Tree → List String → Option Tree
  | t, [] => t
  | some (.dir l), k :: rest =>
      match alookup k l with
      | some v => lookupPath v rest
      | none => none
  | none, _ :: _ => none
  | some (.file _ _ _), _ :: _ => none

/-- Is the entry at this path classified to this partition tree
(file entry, or directory entry with a non-None `"."` self-entry)? -/
def outcome (t : Option Tree) (p : List String) : Bool :=
  match lookupPath t p with
  | some (.file _ _ _) => true
  | some (.dir l) =>
      match alookup "." l with
      | some v => v.isSome
      | none => false
  | none => false

/-- The combinations of partitions that a single path may simultaneously
belong to, per the classification table: nothing; copy and/or delete
(overwrite and type-conflict rows); excludedSource and/or
excludedDestination (exclusion rows); unaccountedDestination alone. -/
def okVector (d c es ud ed : Bool) : Bool :=
  (!es && !ud && !ed) || (!d && !c && !ud) || (!d && !c && !es && !ed)

/-- `okVector` is closed under dropping memberships (a path belonging to
fewer partitions never violates the table). -/
theorem okVector_mono : ∀ d c es ud ed d' c' es' ud' ed' : Bool,
    (d' = true → d = true) → (c' = true → c = true) →
    (es' = true → es = true) → (ud' = true → ud = true) →
    (ed' = true → ed = true) →
    okVector d c es ud ed = true → okVector d' c' es' ud' ed' = true := by
  decide

/-! ## `FileSyncer.remove_excluded_folders_from_unaccounted_tree`
(BetterADBSync/__init__.py, lines 307-328)

When the excluded argument is `None` the unaccounted tree is returned
unchanged.  Otherwise the Python code iterates `unaccounted.items()`,
skipping the `"."` self-entries and rebuilding every other child from
`remove_excluded_...(value, excluded.get(key, None))`.  On a tuple (or
`None`) unaccounted value with a non-None excluded value, `.items()` raises
`AttributeError`; likewise `excluded.get` raises when the excluded value is
a tuple — those aborts become `Except.error`. -/

mutual

/-- `FileSyncer.remove_excluded_folders_from_unaccounted_tree`. -/
def removeExcluded (unaccounted excluded : Option Tree) :
    Except Unit (Option Tree) :=
  match excluded with
  | none => .ok unaccounted
  | some e =>
      match unaccounted with
      | some (.dir l) =>
          (removeExcludedLoop l e).map (fun l' => some (.dir l'))
      | some (.file _ _ _) => .error ()   -- tuple.items(): AttributeError
      | none => .error ()                 -- None.items(): AttributeError
termination_by sizeO unaccounted

/-- The `for unaccounted_key, unaccounted_value in unaccounted.items()` loop:
skip `"."`, recurse on `excluded.get(key, None)` for every other key.  The
`excluded.get` call is only reached for a non-`"."` entry and raises
`AttributeError` when the excluded tree is a tuple. -/
def removeExcludedLoop (items : List (String × Option Tree)) (e : Tree) :
    Except Unit (List (String × Option Tree)) :=
  match items with
  | [] => .ok []
  | (k, v) :: rest =>
      if k = "." then removeExcludedLoop rest e
      else
        match e with
        | .file _ _ _ => .error ()        -- tuple.get: AttributeError
        | .dir le => do
            let v' ← removeExcluded v (popValue k le)
            let rest' ← removeExcludedLoop rest e
            .ok ((k, v') :: rest')
termination_by sizeL items

end

/-! ## `FileSyncer.about_tree` (BetterADBSync/__init__.py, lines 391-402) -/

/-- Python `key.endswith(".")` as called by `about_tree`: for this
one-character suffix it holds exactly when the last character is a dot. -/
def endsWithDot (s : String) : Bool := s.toList.getLast? = some '.'

mutual

/-- `FileSyncer.about_tree(tree, copy_size, copy_files)`: a non-dict adds
`tree[2]` to the size and one to the file count (Python raises `TypeError`
on `None[2]`, modelled as `Except.error`); a dict folds over its entries,
skipping every key that ends with `"."`.  Returns `(copy_files, copy_size)`. -/
def aboutTree (tree : Option Tree) (copySize copyFiles : Int) :
    Except Unit (Int × Int) :=
  match tree with
  | none => .error ()                     -- None[2]: TypeError
  | some (.file _ _ s) => .ok (copyFiles + 1, copySize + s)
  | some (.dir l) => aboutFold l copySize copyFiles
termination_by sizeO tree

/-- The `for key, value in tree_items` loop of `about_tree`, threading the
accumulators; `if key.endswith("."): continue`. -/
def aboutFold (items : List (String × Option Tree)) (copySize copyFiles : Int) :
    Except Unit (Int × Int) :=
  match items with
  | [] => .ok (copyFiles, copySize)
  | (k, v) :: rest =>
      if endsWithDot k then aboutFold rest copySize copyFiles
      else do
        let r ← aboutTree v copySize copyFiles
        aboutFold rest r.2 r.1
termination_by sizeL items

end

/-! ## Executor effects (`FileSystems/Base.py`) and backend wrappers

`remove_tree` and `push_tree_here` interleave logging/progress updates
(pure observers) with mutating filesystem commands.  Only the mutating
commands are modelled, as an effect trace; a `NotImplementedError` (a tree
value that is neither tuple nor dict, i.e. Python `None`) aborts. -/

/-- A mutating filesystem command issued by the executors. -/
inductive Effect where
  | unlink (path : String) : Effect
  | rmdir (path : String) : Effect
  | makedirs (path : String) : Effect
  | pushFile (source destination : String) : Effect
  | utime (path : String) (times : Int × Int) : Effect
deriving Repr, DecidableEq

/-- Python truthiness of a tree value (`None` falsy, a 3-tuple truthy, a
dict truthy iff non-empty): decides `if remove_folder:` in `remove_tree`. -/
def pyTruthy : Option Tree → Bool
  | none => false
  | some (.file _ _ _) => true
  | some (.dir l) => !l.isEmpty

mutual

/-- `FileSystem.remove_tree(tree_path, tree, dry_run)` (Base.py lines
92-110): a tuple logs and, unless dry-running, unlinks; a dict pops the
`"."` self-entry as `remove_folder` (default `False`), removes every child
under `normpath(join(tree_path, key))`, then removes the folder itself when
`remove_folder` is truthy and dry-run is off.  A `None` tree raises
`NotImplementedError`. -/
def removeTree (treePath : String) (tree : Option Tree) (dryRun : Bool)
    (join : String → String → String) (normpath : String → String) :
    Except Unit (List Effect) :=
  match tree with
  | none => .error ()
  | some (.file _ _ _) => .ok (if dryRun then [] else [.unlink treePath])
  | some (.dir l) => do
      let removeFolder := pyTruthy (popValue "." l)
      let es ← removeTreeLoop treePath (aerase "." l) dryRun join normpath
      .ok (es ++ (if removeFolder && !dryRun then [.rmdir treePath] else []))
termination_by sizeO tree
decreasing_by
  all_goals simp_wf
  have := sizeL_aerase_le "." l
  omega

/-- The child loop of `remove_tree`. -/
def removeTreeLoop (treePath : String)
    (items : List (String × Option Tree)) (dryRun : Bool)
    (join : String → String → String) (normpath : String → String) :
    Except Unit (List Effect) :=
  match items with
  | [] => .ok []
  | (k, v) :: rest => do
      let es ← removeTree (normpath (join treePath k)) v dryRun join normpath
      let es' ← removeTreeLoop treePath rest dryRun join normpath
      .ok (es ++ es')
termination_by sizeL items
decreasing_by
  all_goals simp_wf <;> omega

end

mutual

/-- `FileSystem.push_tree_here(tree_path, relative_tree_path, tree,
destination_root, fs_source, dry_run, ...)` (Base.py lines 112-196): a tuple
transfers the file and restores its timestamps (`tuple(list(tree)[:-1])`,
the access/modify pair) unless dry-running; a dict makedirs the destination
root when it still has its `"."` entry (unless dry-running) and recurses on
the other children.  A `None` tree raises `NotImplementedError`. -/
def pushTree (treePath relPath : String) (tree : Option Tree)
    (destinationRoot : String)
    (joinS : String → String → String) (normS : String → String)
    (joinD : String → String → String) (normD : String → String)
    (dryRun : Bool) : Except Unit (List Effect) :=
  match tree with
  | none => .error ()
  | some (.file a m _) =>
      .ok (if dryRun then []
           else [.pushFile treePath destinationRoot,
                 .utime destinationRoot (a, m)])
  | some (.dir l) => do
      let mk := if (alookup "." l).isSome && !dryRun
        then [Effect.makedirs destinationRoot] else []
      let es ← pushTreeLoop treePath relPath (aerase "." l) destinationRoot
        joinS normS joinD normD dryRun
      .ok (mk ++ es)
termination_by sizeO tree
decreasing_by
  all_goals simp_wf
  have := sizeL_aerase_le "." l
  omega

/-- The child loop of `push_tree_here`. -/
def pushTreeLoop (treePath relPath : String)
    (items : List (String × Option Tree)) (destinationRoot : String)
    (joinS : String → String → String) (normS : String → String)
    (joinD : String → String → String) (normD : String → String)
    (dryRun : Bool) : Except Unit (List Effect) :=
  match items with
  | [] => .ok []
  | (k, v) :: rest => do
      let es ← pushTree (normS (joinS treePath k)) (joinS relPath k) v
        (normD (joinD destinationRoot k)) joinS normS joinD normD dryRun
      let es' ← pushTreeLoop treePath relPath rest destinationRoot
        joinS normS joinD normD dryRun
      .ok (es ++ es')
termination_by sizeL items
decreasing_by
  all_goals simp_wf <;> omega

end

/-! ## Backend `unlink`/`rmdir` wrappers

`LocalFileSystem.unlink`/`rmdir` (Local.py lines 15-21) guard
`os.remove`/`os.rmdir` with `os.path.exists`; `AndroidFileSystem.unlink`/
`rmdir` (Android.py lines 195-204) guard a `self.run([...])` subprocess call
with `self.exists`.  The existence oracle is a parameter (the state of the
filesystem), and the issued commands are the observable result.  Note the
Python `["adb" "shell", ...]` in `unlink` — adjacent string literals
concatenate, so that command's first token is the single word `adbshell`. -/

/-- `LocalFileSystem.unlink`: `if os.path.exists(path): os.remove(path)`. -/
def localUnlink (pathExists : String → Bool) (path : String) : List Effect :=
  if pathExists path then [.unlink path] else []

/-- `LocalFileSystem.rmdir`: `if os.path.exists(path): os.rmdir(path)`. -/
def localRmdir (pathExists : String → Bool) (path : String) : List Effect :=
  if pathExists path then [.rmdir path] else []

/-- `AndroidFileSystem.unlink`: `if self.exists(path): self.run(["adb" "shell", "rm", path])`
(the first token is the concatenated literal `"adbshell"`). -/
def androidUnlink (pathExists : String → Bool) (path : String) :
    List (List String) :=
  if pathExists path then [["adbshell", "rm", path]] else []

/-- `AndroidFileSystem.rmdir`: `if self.exists(path): self.run(["adb", "shell", "rm", "-r", path])`. -/
def androidRmdir (pathExists : String → Bool) (path : String) :
    List (List String) :=
  if pathExists path then [["adb", "shell", "rm", "-r", path]] else []

/-! ## The sync phase of `main` (BetterADBSync/__init__.py, lines 647-727)

After the five trees are pruned and sorted, `main` applies the delete tree,
the optional excluded/unaccounted deletions selected by `--delete-excluded` /
`--del`, and finally the copy tree.  The copy arm runs
`fs_destination.makedirs(path_destination)` (line 697) and then
`about_tree` and `push_tree_here`.  Every mutating command this phase issues
is collected, in order. -/

/-- The relative-path argument of the `push_tree_here` call in `main`:
`fs_destination.split(path_source)[1] if isinstance(tree_copy, tuple) else "."`. -/
def copyRelPath (splitD : String → String × String)
    (pathSource : String) : Option Tree → String
  | some (.file _ _ _) => (splitD pathSource).2
  | _ => "."

/-- The mutating commands issued by the sync phase of `main` (lines
647-727), given the already pruned-and-sorted trees and the relevant flags.
`treeUnaccountedNonExcluded` is the tree computed at lines 623-629. -/
def mainSyncEffects (dryRun del delExcluded : Bool)
    (treeDelete treeCopy treeExcludedDestination treeUnaccountedDestination
      treeUnaccountedNonExcluded : Option Tree)
    (pathSource pathDestination : String)
    (joinS : String → String → String) (normS : String → String)
    (joinD : String → String → String) (normD : String → String)
    (splitD : String → String × String) : Except Unit (List Effect) := do
  let e1 ← match treeDelete with
    | some t => removeTree pathDestination (some t) dryRun joinD normD
    | none => .ok []
  let e2 ←
    if delExcluded && del then do
      let a ← match treeExcludedDestination with
        | some t => removeTree pathDestination (some t) dryRun joinD normD
        | none => .ok []
      let b ← match treeUnaccountedDestination with
        | some t => removeTree pathDestination (some t) dryRun joinD normD
        | none => .ok []
      .ok (a ++ b)
    else if delExcluded then
      match treeExcludedDestination with
      | some t => removeTree pathDestination (some t) dryRun joinD normD
      | none => .ok []
    else if del then
      match treeUnaccountedNonExcluded with
      | some t => removeTree pathDestination (some t) dryRun joinD normD
      | none => .ok []
    else
      .ok []
  let e3 ← match treeCopy with
    | some t => do
        -- line 697: `fs_destination.makedirs(path_destination)`,
        -- issued regardless of dry_run
        let _ ← aboutTree (some t) 0 0
        let es ← pushTree pathSource (copyRelPath splitD pathSource (some t))
          (some t) pathDestination joinS normS joinD normD dryRun
        .ok (Effect.makedirs pathDestination :: es)
    | none => .ok []
  .ok (e1 ++ e2 ++ e3)

/-! ## `AndroidFileSystem.ls_to_stat` (Android.py, lines 118-176)

A listing line (already stripped of its trailing `\r\n`, so it contains no
newline in practice) is first checked against
`RE_NO_SUCH_FILE = "^.*: No such file or directory$"` (raises
`FileNotFoundError`), then against
`RE_LS_NOT_A_DIRECTORY = "ls: .*: Not a directory$"` (with `fullmatch`, so
anchored at the start too; raises `NotADirectoryError`), then parsed by the
long verbose regex `RE_LS_TO_STAT`; a line matching none of these goes to
`line_not_captured`, i.e. `logging_fatal` (the fatal protocol-violation
path).  The `.*` of the two error regexes does not match a newline (no
`DOTALL` on them), hence the newline-freeness conjunct; `RE_LS_TO_STAT` is
compiled with `DOTALL`.  The regex's only true choice points are its two
optional groups (hard-link count, directory size): every other repeated
token (`[0-9]+`, `[^ ]+`, `[ ]+`) is followed by a token of a disjoint
character class, so greedy maximal munching is exact. -/

/-- File kind from the exclusive type-marker alternatives of `RE_LS_TO_STAT`. -/
inductive LsKind where
  | reg | blk | chr | dir | lnk | fifo | sock
deriving Repr, DecidableEq

/-- `-bcdlps` type markers. -/
def kindOfChar : Char → Option LsKind
  | '-' => some .reg
  | 'b' => some .blk
  | 'c' => some .chr
  | 'd' => some .dir
  | 'l' => some .lnk
  | 'p' => some .fifo
  | 's' => some .sock
  | _ => none

/-- The data captured by a successful `RE_LS_TO_STAT` match: the type
marker, `st_size` (regular files only), the `YYYY-MM-DD HH:MM` timestamp
fields, and the filename (deliberately uncaptured for symlinks). -/
structure LsEntry where
  kind : LsKind
  stSize : Option Nat
  year : Nat
  month : Nat
  day : Nat
  hour : Nat
  minute : Nat
  filename : Option (List Char)
deriving Repr, DecidableEq

/-- The `st_mode` synthesized at Android.py lines 125-141: permission bits
0o755 or-ed with the `S_IF*` flag of the matched type marker. -/
def stModeOf (k : LsKind) : Nat :=
  493 |||
    (match k with
     | .reg => 32768
     | .blk => 24576
     | .chr => 8192
     | .dir => 16384
     | .fifo => 4096
     | .lnk => 40960
     | .sock => 49152)

/-- The mode string `[-r][-w][-xsS][-r][-w][-xsS][-r][-w][-xtT]`
(nine characters after the type marker). -/
def parseMode : List Char → Option (List Char)
  | r1 :: w1 :: x1 :: r2 :: w2 :: x2 :: r3 :: w3 :: x3 :: rest =>
      if ['-', 'r'].contains r1 && ['-', 'w'].contains w1 &&
         ['-', 'x', 's', 'S'].contains x1 &&
         ['-', 'r'].contains r2 && ['-', 'w'].contains w2 &&
         ['-', 'x', 's', 'S'].contains x2 &&
         ['-', 'r'].contains r3 && ['-', 'w'].contains w3 &&
         ['-', 'x', 't', 'T'].contains x3
      then some rest else none
  | _ => none

/-- Greedy `[0-9]+`: at least one digit, maximal run. -/
def digits1 : List Char → Option (List Char × List Char)
  | [] => none
  | c :: t =>
      if c.isDigit then
        match digits1 t with
        | some (ds, rest) => some (c :: ds, rest)
        | none => some ([c], t)
      else none

/-- Greedy `[ ]+`: at least one space, maximal run. -/
def spaces1 : List Char → Option (List Char)
  | [] => none
  | c :: t =>
      if c = ' ' then
        match spaces1 t with
        | some rest => some rest
        | none => some t
      else none

/-- Greedy `[^ ]+`: at least one non-space, maximal run. -/
def nonspace1 : List Char → Option (List Char)
  | [] => none
  | c :: t =>
      if c = ' ' then none
      else
        match nonspace1 t with
        | some rest => some rest
        | none => some t

/-- Exactly `n` digits (`[0-9]{n}`), returning their value. -/
def digitsN : Nat → List Char → Option (Nat × List Char)
  | 0, s => some (0, s)
  | n + 1, [] => none
  | n + 1, c :: t =>
      if c.isDigit then
        (digitsN n t).map (fun p => (p.1 + (c.toNat - 48) * 10 ^ n, p.2))
      else none

/-- A single literal character. -/
def expectCh (c : Char) : List Char → Option (List Char)
  | [] => none
  | c' :: t => if c' = c then some t else none

/-- Numeric value of a digit run. -/
def digitsToNat (ds : List Char) : Nat :=
  ds.foldl (fun acc c => acc * 10 + (c.toNat - 48)) 0

/-- The fixed tail of `RE_LS_TO_STAT`: the `YYYY-MM-DD HH:MM` timestamp, a
single space, and the filename to end of line (uncaptured for symlinks). -/
def finishTs (k : LsKind) (size : Option Nat) (s : List Char) :
    Option LsEntry := do
  let (y, s1) ← digitsN 4 s
  let s2 ← expectCh '-' s1
  let (mo, s3) ← digitsN 2 s2
  let s4 ← expectCh '-' s3
  let (d, s5) ← digitsN 2 s4
  let s6 ← expectCh ' ' s5
  let (h, s7) ← digitsN 2 s6
  let s8 ← expectCh ':' s7
  let (mi, s9) ← digitsN 2 s8
  let s10 ← expectCh ' ' s9
  some { kind := k, stSize := size, year := y, month := mo, day := d,
         hour := h, minute := mi,
         filename := match k with | .lnk => none | _ => some s10 }

/-- The kind-conditional middle of `RE_LS_TO_STAT`: device-number pair
(block/char), optional directory size (greedy first), size (regular),
link length (symlink). -/
def kindSpecific (k : LsKind) (s : List Char) : Option LsEntry :=
  match k with
  | .blk | .chr => do
      let s1 ← nonspace1 s
      let s2 ← spaces1 s1
      let s3 ← nonspace1 s2
      let s4 ← spaces1 s3
      finishTs k none s4
  | .dir =>
      (do
        let (_, s1) ← digits1 s
        let s2 ← spaces1 s1
        finishTs k none s2) <|>
      finishTs k none s
  | .reg => do
      let (ds, s1) ← digits1 s
      let s2 ← spaces1 s1
      finishTs k (some (digitsToNat ds)) s2
  | .lnk => do
      let (_, s1) ← digits1 s
      let s2 ← spaces1 s1
      finishTs k none s2
  | .fifo | .sock => finishTs k none s

/-- User and group fields (`[^ ]+[ ]+[^ ]+[ ]+`) and the rest. -/
def afterLink (k : LsKind) (s : List Char) : Option LsEntry := do
  let s1 ← nonspace1 s
  let s2 ← spaces1 s1
  let s3 ← nonspace1 s2
  let s4 ← spaces1 s3
  kindSpecific k s4

/-- The full `RE_LS_TO_STAT` match: type marker, mode string, spaces,
optional hard-link count (greedy first), then `afterLink`. -/
def parseLs (line : List Char) : Option LsEntry :=
  match line with
  | [] => none
  | c0 :: rest => do
      let k ← kindOfChar c0
      let r1 ← parseMode rest
      let r2 ← spaces1 r1
      (do
        let (_, s1) ← digits1 r2
        let s2 ← spaces1 s1
        afterLink k s2) <|>
      afterLink k r2

/-- `RE_NO_SUCH_FILE.fullmatch(line)`: the line ends with
`": No such file or directory"` and contains no newline (the `.*` of the
pattern is newline-free). -/
def noSuchFileLine (line : List Char) : Bool :=
  ": No such file or directory".toList.isSuffixOf line &&
    !line.contains '\n'

/-- `RE_LS_NOT_A_DIRECTORY.fullmatch(line)`: starts with `"ls: "`, ends
with `": Not a directory"`, is long enough that the two do not overlap,
and contains no newline. -/
def lsNotADirectoryLine (line : List Char) : Bool :=
  "ls: ".toList.isPrefixOf line &&
    ": Not a directory".toList.isSuffixOf line &&
    decide (21 ≤ line.length) &&
    !line.contains '\n'

/-- The errors `ls_to_stat` can raise: `FileNotFoundError`,
`NotADirectoryError`, and the fatal `line_not_captured` → `logging_fatal`
protocol-violation path. -/
inductive LsError where
  | notFound | notADirectory | protocolViolation
deriving Repr, DecidableEq

/-- `AndroidFileSystem.ls_to_stat`, with its three checks in source order. -/
def lsToStat (line : List Char) : Except LsError LsEntry :=
  if noSuchFileLine line then .error .notFound
  else if lsNotADirectoryLine line then .error .notADirectory
  else
    match parseLs line with
    | some e => .ok e
    | none => .error .protocolViolation

/-! ## General lemmas about association-list lookup -/

@[simp] theorem alookup_nil {α : Type} (k : String) :
    alookup k ([] : List (String × α)) = none := rfl

theorem alookup_cons {α : Type} (k k' : String) (v : α)
    (l : List (String × α)) :
    alookup k ((k', v) :: l) = if k' = k then some v else alookup k l := rfl

theorem alookup_append {α : Type} (k : String) (l1 l2 : List (String × α)) :
    alookup k (l1 ++ l2) =
      match alookup k l1 with
      | some v => some v
      | none => alookup k l2 := by
  induction l1 with
  | nil => simp
  | cons p rest ih =>
      obtain ⟨k', v'⟩ := p
      by_cases h : k' = k <;> simp [alookup_cons, h, ih]

theorem alookup_map {α β : Type} (k : String) (f : α → β)
    (l : List (String × α)) :
    alookup k (l.map (fun p => (p.1, f p.2))) = (alookup k l).map f := by
  induction l with
  | nil => simp
  | cons p rest ih =>
      obtain ⟨k', v'⟩ := p
      by_cases h : k' = k <;> simp [alookup_cons, h, ih]

theorem alookup_aerase_ne {α : Type} (k k' : String)
    (l : List (String × α)) (h : k' ≠ k) :
    alookup k' (aerase k l) = alookup k' l := by
  induction l with
  | nil => simp [aerase]
  | cons p rest ih =>
      obtain ⟨k0, v0⟩ := p
      by_cases h0 : k0 = k
      · subst h0
        simp [aerase, alookup_cons, Ne.symm h]
      · simp [aerase, alookup_cons, h0, ih]

/-! ## Outcome evaluation lemmas -/

@[simp] theorem lookupPath_nil (t : Option Tree) : lookupPath t [] = t := by
  cases t with
  | none => rfl
  | some t' => cases t' <;> rfl

@[simp] theorem lookupPath_none (p : List String) :
    lookupPath none p = none := by
  cases p <;> rfl

@[simp] theorem lookupPath_file (a m s : Int) (k : String) (p : List String) :
    lookupPath (some (.file a m s)) (k :: p) = none := rfl

theorem lookupPath_dir (l : List (String × Option Tree)) (k : String)
    (p : List String) :
    lookupPath (some (.dir l)) (k :: p) =
      match alookup k l with
      | some v => lookupPath v p
      | none => none := rfl

@[simp] theorem outcome_none (p : List String) : outcome none p = false := by
  simp [outcome]

@[simp] theorem outcome_file_nil (a m s : Int) :
    outcome (some (.file a m s)) [] = true := rfl

@[simp] theorem outcome_file_cons (a m s : Int) (k : String) (p : List String) :
    outcome (some (.file a m s)) (k :: p) = false := rfl

theorem outcome_dir_nil (l : List (String × Option Tree)) :
    outcome (some (.dir l)) [] =
      match alookup "." l with
      | some v => v.isSome
      | none => false := rfl

theorem outcome_dir_cons (l : List (String × Option Tree)) (k : String)
    (p : List String) :
    outcome (some (.dir l)) (k :: p) =
      match alookup k l with
      | some v => outcome v p
      | none => false := by
  simp only [outcome, lookupPath_dir]
  cases alookup k l with
  | none => simp [outcome]
  | some v => simp [outcome]

/-! ## C1: the file/file tie-break

The claim says `diff_trees` decides the non-excluded file/file case solely
by modification time, so that an equal-or-older source is a no-op even when
the sizes differ.  `BetterADBSync.FileSyncer.diff_trees` has an additional
`elif source[2] != destination[2]` branch (lines 146-151) that deletes and
copies on a size mismatch, so the claim is false as stated; the actual rule
is: no-op iff the source's mtime is not strictly greater *and* the sizes
are equal. -/

/-- C1 (counterexample): with equal modification times (100) but different
sizes (5 vs 7) and no exclusions, `diff_trees` returns a non-empty delete
and copy — not the no-op the claim requires. -/
theorem c1_counterexample_size_mismatch :
    ¬((100 : Int) > 100) ∧
    diffTrees (some (.file 0 100 5)) (some (.file 0 100 7)) "src" "dst" []
      (fun a b => a ++ "/" ++ b) (fun a b => a ++ "/" ++ b) true =
      .ok ⟨some (.file 0 100 7), some (.file 0 100 5), none, none, none⟩ := by
  constructor
  · omega
  · simp [diffTrees, anyMatch]

/-- C1 (amended): for a non-excluded file/file pair, `diff_trees` deletes
the destination and copies the source iff the source's modification time is
strictly greater or the sizes differ; otherwise (mtime not greater and equal
sizes) all five outputs are empty. -/
theorem c1_file_tiebreak_mtime_then_size (a m s a' m' s' : Int)
    (pS pD : String) (pats : List String)
    (jS jD : String → String → String) (ffoe : Bool)
    (hex : anyMatch pats pD = false) :
    diffTrees (some (.file a m s)) (some (.file a' m' s')) pS pD pats jS jD
        ffoe =
      .ok (if m > m' ∨ s ≠ s' then
            ⟨some (.file a' m' s'), some (.file a m s), none, none, none⟩
           else ⟨none, none, none, none, none⟩) := by
  rw [diffTrees]
  simp only [hex]
  by_cases h1 : m > m'
  · simp [h1]
  · by_cases h2 : s = s' <;> simp [h1, h2]

/-- C1 witness: source and destination with equal mtime and equal size are
a no-op. -/
theorem c1_witness :
    diffTrees (some (.file 0 7 5)) (some (.file 1 7 5)) "s" "d" []
      (fun a b => a ++ "/" ++ b) (fun a b => a ++ "/" ++ b) true =
      .ok ⟨none, none, none, none, none⟩ := by
  have h := c1_file_tiebreak_mtime_then_size 0 7 5 1 7 5 "s" "d" []
    (fun a b => a ++ "/" ++ b) (fun a b => a ++ "/" ++ b) true rfl
  simpa using h

/-! ## C4: `prune_tree` is idempotent

Pruned output contains no `None` entries and no empty dicts (those were
turned into `None`), which is also why pruning again changes nothing. -/

mutual

/-- No `None` entries and no empty dict anywhere in the tree: the shape
guaranteed by `prune_tree`'s output. -/
def cleanT : Option Tree → Bool
  | none => true
  | some (.file _ _ _) => true
  | some (.dir l) => !l.isEmpty && cleanL l

/-- Entry-list version of `cleanT`: every value is non-`None` and clean. -/
def cleanL : List (String × Option Tree) → Bool
  | [] => true
  | (_, v) :: rest => v.isSome && cleanT v && cleanL rest

end

theorem prune_idem_aux (n : Nat) :
    (∀ t, sizeO t ≤ n →
      pruneTree (pruneTree t) = pruneTree t ∧ cleanT (pruneTree t) = true) ∧
    (∀ l, sizeL l ≤ n →
      pruneChildren (pruneChildren l) = pruneChildren l ∧
        cleanL (pruneChildren l) = true) := by
  induction n with
  | zero =>
      constructor
      · intro t ht
        match t with
        | none => simp [pruneTree, cleanT]
        | some (.file a m s) => simp at ht
        | some (.dir l) => simp at ht
      · intro l hl
        match l with
        | [] => simp [pruneChildren, cleanL]
        | (k, v) :: rest => simp at hl
  | succ n ih =>
      constructor
      · intro t ht
        match t with
        | none => simp [pruneTree, cleanT]
        | some (.file a m s) => simp [pruneTree, cleanT]
        | some (.dir l) =>
            have hl : sizeL l ≤ n := by simp at ht; omega
            obtain ⟨hidem, hclean⟩ := ih.2 l hl
            cases hpc : pruneChildren l with
            | nil => simp [pruneTree, hpc, cleanT]
            | cons p rest =>
                rw [hpc] at hidem hclean
                simp only [pruneTree, hpc, hidem]
                refine ⟨trivial, ?_⟩
                simp [cleanT, hclean]
      · intro l hl
        match l with
        | [] => simp [pruneChildren, cleanL]
        | (k, v) :: rest =>
            have hv : sizeO v ≤ n := by simp at hl; omega
            have hr : sizeL rest ≤ n := by simp at hl; omega
            obtain ⟨hvidem, hvclean⟩ := ih.1 v hv
            obtain ⟨hridem, hrclean⟩ := ih.2 rest hr
            cases hpv : pruneTree v with
            | none =>
                simp only [pruneChildren, hpv]
                exact ⟨hridem, hrclean⟩
            | some t' =>
                rw [hpv] at hvidem hvclean
                simp only [pruneChildren, hpv, hvidem, hridem]
                refine ⟨trivial, ?_⟩
                simp [cleanL, hvclean, hrclean]

/-- C4: `prune_tree` is idempotent, and its output has no `None` entries
and no empty dict (an empty dict became `None`). -/
theorem c4_prune_tree_idempotent (t : Option Tree) :
    pruneTree (pruneTree t) = pruneTree t ∧ cleanT (pruneTree t) = true :=
  (prune_idem_aux (sizeO t)).1 t le_rfl

/-! ## C8: `ls_to_stat`'s pre-grammar short-circuits -/

/-- C8: (i) a (newline-free) line ending in `": No such file or directory"`
makes `ls_to_stat` raise `FileNotFoundError` — never the fatal
`line_not_captured` path; (ii) a line matching
`RE_LS_NOT_A_DIRECTORY` (an `"ls: "` prefix, a `": Not a directory"`
suffix) raises `NotADirectoryError`; (iii) only lines that match neither
short-circuit nor the listing grammar reach the fatal path. -/
theorem c8_ls_to_stat_short_circuits :
    (∀ line : List Char,
      ": No such file or directory".toList.isSuffixOf line = true →
      line.contains '\n' = false →
      lsToStat line = .error .notFound) ∧
    (∀ line : List Char,
      lsNotADirectoryLine line = true →
      lsToStat line = .error .notADirectory) ∧
    (∀ line : List Char,
      lsToStat line = .error .protocolViolation ↔
        (noSuchFileLine line = false ∧ lsNotADirectoryLine line = false ∧
          parseLs line = none)) := by
  refine ⟨?_, ?_, ?_⟩
  · intro line hsuf hnl
    have h : noSuchFileLine line = true := by
      simp [noSuchFileLine]
      exact ⟨List.isSuffixOf_iff_suffix.mp hsuf, by simpa using hnl⟩
    simp [lsToStat, h]
  · intro line hnad
    have hno : noSuchFileLine line = false := by
      by_contra hc
      have h1 : noSuchFileLine line = true := by
        cases h : noSuchFileLine line with
        | true => rfl
        | false => exact absurd h hc
      simp [noSuchFileLine] at h1
      have h2 := hnad
      simp [lsNotADirectoryLine] at h2
      have h2suf := h2.1.1.2
      have hss : ": Not a directory".toList <:+
          ": No such file or directory".toList :=
        List.suffix_of_suffix_length_le h2suf h1.1 (by decide)
      exact absurd hss (by decide)
    simp [lsToStat, hno, hnad]
  · intro line
    constructor
    · intro h
      by_cases h1 : noSuchFileLine line = true
      · simp [lsToStat, h1] at h
      · by_cases h2 : lsNotADirectoryLine line = true
        · simp [lsToStat, h1, h2] at h
        · refine ⟨by simpa using h1, by simpa using h2, ?_⟩
          cases hp : parseLs line with
          | none => rfl
          | some e => simp [lsToStat, h1, h2, hp] at h
    · rintro ⟨h1, h2, h3⟩
      simp [lsToStat, h1, h2, h3]

/-- C8 witness: the spec's scenario line is classified `NotFound`. -/
theorem c8_witness :
    lsToStat "ls: /sdcard/missing: No such file or directory".toList =
      .error .notFound :=
  c8_ls_to_stat_short_circuits.1 _ (by decide) (by decide)

/-! ## C9: `about_tree` skips every key that ends with a dot -/

mutual

/-- Specification count: the number of file leaves reachable without
traversing an entry whose key ends with `"."`. -/
def specFilesT : Tree → Int
  | .file _ _ _ => 1
  | .dir l => specFilesL l

/-- Entry-list version of `specFilesT`. -/
def specFilesL : List (String × Option Tree) → Int
  | [] => 0
  | (k, v) :: rest =>
      (if endsWithDot k then 0 else
        match v with
        | none => 0
        | some t => specFilesT t) + specFilesL rest

/-- Specification byte total over the same reachable file leaves. -/
def specBytesT : Tree → Int
  | .file _ _ s => s
  | .dir l => specBytesL l

/-- Entry-list version of `specBytesT`. -/
def specBytesL : List (String × Option Tree) → Int
  | [] => 0
  | (k, v) :: rest =>
      (if endsWithDot k then 0 else
        match v with
        | none => 0
        | some t => specBytesT t) + specBytesL rest

/-- Every entry reachable without traversing a `"."`-suffixed key is
non-`None` (the shape `about_tree` requires to avoid `None[2]`). -/
def noNoneReach : Tree → Bool
  | .file _ _ _ => true
  | .dir l => noNoneReachL l

/-- Entry-list version of `noNoneReach`. -/
def noNoneReachL : List (String × Option Tree) → Bool
  | [] => true
  | (k, v) :: rest =>
      (endsWithDot k ||
        match v with
        | none => false
        | some t => noNoneReach t) && noNoneReachL rest

end

theorem specFilesT_dir (l : List (String × Option Tree)) :
    specFilesT (.dir l) = specFilesL l := by
  rw [specFilesT]

theorem specFilesL_cons (k : String) (v : Option Tree)
    (rest : List (String × Option Tree)) :
    specFilesL ((k, v) :: rest) =
      (if endsWithDot k then 0 else
        match v with
        | none => 0
        | some t => specFilesT t) + specFilesL rest := by
  rw [specFilesL.eq_def]

theorem specBytesT_dir (l : List (String × Option Tree)) :
    specBytesT (.dir l) = specBytesL l := by
  rw [specBytesT]

theorem specBytesL_cons (k : String) (v : Option Tree)
    (rest : List (String × Option Tree)) :
    specBytesL ((k, v) :: rest) =
      (if endsWithDot k then 0 else
        match v with
        | none => 0
        | some t => specBytesT t) + specBytesL rest := by
  rw [specBytesL.eq_def]

theorem noNoneReachL_cons (k : String) (v : Option Tree)
    (rest : List (String × Option Tree)) :
    noNoneReachL ((k, v) :: rest) =
      ((endsWithDot k ||
        match v with
        | none => false
        | some t => noNoneReach t) && noNoneReachL rest) := by
  rw [noNoneReachL.eq_def]

theorem about_tree_aux (n : Nat) :
    (∀ t sz fl, sizeT t ≤ n → noNoneReach t = true →
      aboutTree (some t) sz fl = .ok (fl + specFilesT t, sz + specBytesT t)) ∧
    (∀ l sz fl, sizeL l ≤ n → noNoneReachL l = true →
      aboutFold l sz fl = .ok (fl + specFilesL l, sz + specBytesL l)) := by
  induction n with
  | zero =>
      constructor
      · intro t sz fl ht
        cases t with
        | file a m s => simp at ht
        | dir l => simp at ht
      · intro l sz fl hl
        cases l with
        | nil => intro _; simp [aboutFold, specFilesL, specBytesL]
        | cons p rest =>
            obtain ⟨k, v⟩ := p
            simp at hl
  | succ n ih =>
      constructor
      · intro t sz fl ht hr
        cases t with
        | file a m s => simp [aboutTree, specFilesT, specBytesT]
        | dir l =>
            have hl : sizeL l ≤ n := by simp at ht; omega
            rw [aboutTree]
            rw [noNoneReach] at hr
            rw [ih.2 l sz fl hl hr, specFilesT_dir, specBytesT_dir]
      · intro l sz fl hl hr
        cases l with
        | nil => simp [aboutFold, specFilesL, specBytesL]
        | cons p rest =>
            obtain ⟨k, v⟩ := p
            have hv : sizeO v ≤ n := by simp at hl; omega
            have hrl : sizeL rest ≤ n := by simp at hl; omega
            rw [noNoneReachL_cons, Bool.and_eq_true] at hr
            obtain ⟨hv1, hv2⟩ := hr
            cases hd : endsWithDot k with
            | true =>
                rw [aboutFold]
                simp only [hd, if_pos rfl]
                rw [ih.2 rest sz fl hrl hv2, specFilesL_cons, specBytesL_cons]
                simp [hd]
            | false =>
                rw [hd] at hv1
                simp only [Bool.false_or] at hv1
                cases v with
                | none => simp at hv1
                | some t =>
                    have hvt : sizeT t ≤ n := by simpa using hv
                    rw [aboutFold]
                    simp only [hd, Bool.false_eq_true, if_false]
                    rw [ih.1 t sz fl hvt hv1]
                    simp only [bind, Except.bind]
                    rw [ih.2 rest (sz + specBytesT t) (fl + specFilesT t) hrl hv2,
                      specFilesL_cons, specBytesL_cons]
                    simp only [hd, Bool.false_eq_true, if_false, Except.ok.injEq,
                      Prod.mk.injEq]
                    constructor <;> ring

/-- C9: on a tree whose reachable entries are all non-`None`, `about_tree`
returns exactly the file-count and byte-total of the leaves reachable
without traversing any key that ends with `"."` — so a genuine file whose
name ends with a dot is omitted from the reported totals. -/
theorem c9_about_tree_skips_dot_suffixed (t : Tree) (sz fl : Int)
    (h : noNoneReach t = true) :
    aboutTree (some t) sz fl = .ok (fl + specFilesT t, sz + specBytesT t) :=
  (about_tree_aux (sizeT t)).1 t sz fl le_rfl h

/-- C9 witness: a copy tree with a normal file `a` (5 bytes) and a file
`b.` (7 bytes) reports 1 file and 5 bytes — the dot-suffixed file is
omitted. -/
theorem c9_witness :
    aboutTree (some (.dir [(".", some (.file 0 0 0)),
        ("a", some (.file 0 0 5)), ("b.", some (.file 0 0 7))])) 0 0 =
      .ok (1, 5) := by
  have h := c9_about_tree_skips_dot_suffixed
    (.dir [(".", some (.file 0 0 0)), ("a", some (.file 0 0 5)),
      ("b.", some (.file 0 0 7))]) 0 0
    (by simp [noNoneReach, noNoneReachL, endsWithDot])
  rw [h]
  norm_num [specFilesT, specFilesL, specBytesT, specBytesL, endsWithDot]
  decide

/-! ## C10: `unlink`/`rmdir` are no-ops on missing paths -/

/-- C10: when the path does not exist, `LocalFileSystem.unlink`/`rmdir` and
`AndroidFileSystem.unlink`/`rmdir` issue no remove command and return
without error. -/
theorem c10_unlink_rmdir_noop_when_missing (pathExists : String → Bool)
    (path : String) (h : pathExists path = false) :
    localUnlink pathExists path = [] ∧ localRmdir pathExists path = [] ∧
    androidUnlink pathExists path = [] ∧ androidRmdir pathExists path = [] := by
  simp [localUnlink, localRmdir, androidUnlink, androidRmdir, h]

/-- C10 witness. -/
theorem c10_witness :
    localUnlink (fun _ => false) "/sdcard/x" = [] ∧
    localRmdir (fun _ => false) "/sdcard/x" = [] ∧
    androidUnlink (fun _ => false) "/sdcard/x" = [] ∧
    androidRmdir (fun _ => false) "/sdcard/x" = [] :=
  c10_unlink_rmdir_noop_when_missing (fun _ => false) "/sdcard/x" rfl

/-! ## C2: dry-run and the unguarded `makedirs` in `main`

`remove_tree` and `push_tree_here` guard every mutating command with
`if not dry_run`, but `main` calls `fs_destination.makedirs(path_destination)`
(__init__.py line 697) before `push_tree_here` without any dry-run guard, so
a dry run with a non-empty copy tree still issues one mutating `makedirs`. -/

theorem remove_tree_dry_run_no_effects_aux (n : Nat) :
    (∀ tree treePath join normpath es, sizeO tree ≤ n →
      removeTree treePath tree true join normpath = .ok es → es = []) ∧
    (∀ items treePath join normpath es, sizeL items ≤ n →
      removeTreeLoop treePath items true join normpath = .ok es → es = []) := by
  induction n with
  | zero =>
      constructor
      · intro tree treePath join normpath es ht h
        cases tree with
        | none => simp [removeTree] at h
        | some t =>
            cases t with
            | file a m s =>
                simp [removeTree] at h
                first | exact h | exact h.symm
            | dir l => simp at ht
      · intro items treePath join normpath es hl h
        cases items with
        | nil =>
            simp [removeTreeLoop] at h
            first | exact h | exact h.symm
        | cons p rest => obtain ⟨k, v⟩ := p; simp at hl
  | succ n ih =>
      constructor
      · intro tree treePath join normpath es ht h
        cases tree with
        | none => simp [removeTree] at h
        | some t =>
            cases t with
            | file a m s =>
                simp [removeTree] at h
                first | exact h | exact h.symm
            | dir l =>
                rw [removeTree] at h
                simp only [bind, Except.bind] at h
                cases hloop : removeTreeLoop treePath (aerase "." l) true
                    join normpath with
                | error e => rw [hloop] at h; cases h
                | ok es1 =>
                    rw [hloop] at h
                    have hl : sizeL (aerase "." l) ≤ n := by
                      have h1 := sizeL_aerase_le "." l
                      have h2 : sizeO (some (Tree.dir l)) = 1 + sizeL l := by
                        simp
                      omega
                    have h1 := ih.2 (aerase "." l) treePath join normpath es1
                      hl hloop
                    subst h1
                    simp at h
                    first | exact h | exact h.symm
      · intro items treePath join normpath es hl h
        cases items with
        | nil =>
            simp [removeTreeLoop] at h
            first | exact h | exact h.symm
        | cons p rest =>
            obtain ⟨k, v⟩ := p
            rw [removeTreeLoop] at h
            simp only [bind, Except.bind] at h
            cases h1 : removeTree (normpath (join treePath k)) v true
                join normpath with
            | error e => rw [h1] at h; cases h
            | ok es1 =>
                rw [h1] at h
                cases h2 : removeTreeLoop treePath rest true join normpath with
                | error e => rw [h2] at h; cases h
                | ok es2 =>
                    rw [h2] at h
                    have hv : sizeO v ≤ n := by
                      have hc : sizeL ((k, v) :: rest) = 1 + sizeO v + sizeL rest := by
                        simp
                      omega
                    have hr : sizeL rest ≤ n := by
                      have hc : sizeL ((k, v) :: rest) = 1 + sizeO v + sizeL rest := by
                        simp
                      omega
                    have e1 := ih.1 v (normpath (join treePath k)) join
                      normpath es1 hv h1
                    have e2 := ih.2 rest treePath join normpath es2 hr h2
                    subst e1
                    subst e2
                    simp at h
                    first | exact h | exact h.symm

theorem push_tree_dry_run_no_effects_aux (n : Nat) :
    (∀ tree treePath relPath destRoot joinS normS joinD normD es,
      sizeO tree ≤ n →
      pushTree treePath relPath tree destRoot joinS normS joinD normD true =
        .ok es → es = []) ∧
    (∀ items treePath relPath destRoot joinS normS joinD normD es,
      sizeL items ≤ n →
      pushTreeLoop treePath relPath items destRoot joinS normS joinD normD
        true = .ok es → es = []) := by
  induction n with
  | zero =>
      constructor
      · intro tree treePath relPath destRoot joinS normS joinD normD es ht h
        cases tree with
        | none => simp [pushTree] at h
        | some t =>
            cases t with
            | file a m s =>
                simp [pushTree] at h
                first | exact h | exact h.symm
            | dir l => simp at ht
      · intro items treePath relPath destRoot joinS normS joinD normD es hl h
        cases items with
        | nil =>
            simp [pushTreeLoop] at h
            first | exact h | exact h.symm
        | cons p rest => obtain ⟨k, v⟩ := p; simp at hl
  | succ n ih =>
      constructor
      · intro tree treePath relPath destRoot joinS normS joinD normD es ht h
        cases tree with
        | none => simp [pushTree] at h
        | some t =>
            cases t with
            | file a m s =>
                simp [pushTree] at h
                first | exact h | exact h.symm
            | dir l =>
                rw [pushTree] at h
                simp only [bind, Except.bind] at h
                cases hloop : pushTreeLoop treePath relPath (aerase "." l)
                    destRoot joinS normS joinD normD true with
                | error e => rw [hloop] at h; cases h
                | ok es1 =>
                    rw [hloop] at h
                    have hl : sizeL (aerase "." l) ≤ n := by
                      have h1 := sizeL_aerase_le "." l
                      have h2 : sizeO (some (Tree.dir l)) = 1 + sizeL l := by
                        simp
                      omega
                    have h1 := ih.2 (aerase "." l) treePath relPath destRoot
                      joinS normS joinD normD es1 hl hloop
                    subst h1
                    simp at h
                    first | exact h | exact h.symm
      · intro items treePath relPath destRoot joinS normS joinD normD es hl h
        cases items with
        | nil =>
            simp [pushTreeLoop] at h
            first | exact h | exact h.symm
        | cons p rest =>
            obtain ⟨k, v⟩ := p
            rw [pushTreeLoop] at h
            simp only [bind, Except.bind] at h
            cases h1 : pushTree (normS (joinS treePath k)) (joinS relPath k)
                v (normD (joinD destRoot k)) joinS normS joinD normD true with
            | error e => rw [h1] at h; cases h
            | ok es1 =>
                rw [h1] at h
                cases h2 : pushTreeLoop treePath relPath rest destRoot
                    joinS normS joinD normD true with
                | error e => rw [h2] at h; cases h
                | ok es2 =>
                    rw [h2] at h
                    have hv : sizeO v ≤ n := by
                      have hc : sizeL ((k, v) :: rest) = 1 + sizeO v + sizeL rest := by
                        simp
                      omega
                    have hr : sizeL rest ≤ n := by
                      have hc : sizeL ((k, v) :: rest) = 1 + sizeO v + sizeL rest := by
                        simp
                      omega
                    have e1 := ih.1 v (normS (joinS treePath k))
                      (joinS relPath k) (normD (joinD destRoot k)) joinS normS
                      joinD normD es1 hv h1
                    have e2 := ih.2 rest treePath relPath destRoot joinS normS
                      joinD normD es2 hr h2
                    subst e1
                    subst e2
                    simp at h
                    first | exact h | exact h.symm

/-- C2 (the failing run): with `dry_run = true`, a non-empty (pruned) delete
tree and a non-empty copy tree, the sync phase of `main` still issues the
mutating `fs_destination.makedirs(path_destination)` of line 697 — and
nothing else: `remove_tree` and `push_tree_here` correctly issue no effect
under dry-run, but `main`'s `makedirs` call is not guarded by `dry_run`,
contradicting the claim that a dry run issues no mutating command at all. -/
theorem c2_dry_run_still_issues_makedirs :
    mainSyncEffects true false false
      (some (.file 0 0 1)) (some (.file 0 5 1)) none none none
      "src" "dst" (fun a b => a ++ "/" ++ b) id (fun a b => a ++ "/" ++ b) id
      (fun p => ("", p)) = .ok [Effect.makedirs "dst"] := by
  simp [mainSyncEffects, removeTree, pushTree, aboutTree, copyRelPath,
    bind, Except.bind]

/-! ## C6: type conflicts, `--force` and `--dry-run`

`main` computes
`folder_file_overwrite_error = not args.dry_run and not args.force`
(__init__.py line 529), so an unforced conflict aborts only when dry-run is
off as well. -/

/-- The `folder_file_overwrite_error` argument as computed by `main`. -/
def folderFileOverwriteError (dryRun force : Bool) : Bool :=
  !dryRun && !force

mutual

/-- Snapshot-tree shape: every dict's first entry is its `"."` self-entry
(as built by `_get_files_tree`, which creates `{".": ...}` first). -/
def dotFirstT : Tree → Bool
  | .file _ _ _ => true
  | .dir l =>
      match l with
      | (k0, _) :: rest => k0 = "." && dotFirstL rest
      | [] => false

/-- Entry-list version of `dotFirstT` (for the non-`"."` children). -/
def dotFirstL : List (String × Option Tree) → Bool
  | [] => true
  | (_, v) :: rest => dotFirstO v && dotFirstL rest

/-- Optional-tree version of `dotFirstT`. -/
def dotFirstO : Option Tree → Bool
  | none => true
  | some t => dotFirstT t

end

theorem dotFirstL_cons (k : String) (v : Option Tree)
    (rest : List (String × Option Tree)) :
    dotFirstL ((k, v) :: rest) = (dotFirstO v && dotFirstL rest) := by
  rw [dotFirstL.eq_def]

/-- Diffing a source subtree against an absent destination with no matching
exclusion pattern copies the source verbatim: `copy` is the source itself,
`delete`/`unaccounted`/`excludedDestination` are `None`, and
`excludedSource` prunes to `None`. -/
theorem diff_src_none_copies_aux (n : Nat) :
    (∀ v pS pD pats jS jD ffoe, sizeO v ≤ n → dotFirstO v = true →
      (∀ q, anyMatch pats q = false) →
      ∃ es, diffTrees v none pS pD pats jS jD ffoe =
          .ok ⟨none, v, es, none, none⟩ ∧ pruneTree es = none) ∧
    (∀ items pS pD pats jS jD ffoe, sizeL items ≤ n →
      dotFirstL items = true → (∀ q, anyMatch pats q = false) →
      ∃ rs, diffLoopSrc items pS pD pats jS jD ffoe = .ok rs ∧
        rs.map (fun p => (p.1, p.2.copy)) = items ∧
        pruneChildren (rs.map (fun p => (p.1, p.2.exSrc))) = []) := by
  induction n with
  | zero =>
      constructor
      · intro v pS pD pats jS jD ffoe hs hd hp
        cases v with
        | none =>
            refine ⟨none, ?_, by rw [pruneTree]⟩
            rw [diffTrees]
        | some t => cases t <;> simp at hs
      · intro items pS pD pats jS jD ffoe hs hd hp
        cases items with
        | nil =>
            exact ⟨[], by rw [diffLoopSrc], rfl,
              by simp only [List.map_nil]; rw [pruneChildren]⟩
        | cons p rest => obtain ⟨k, v⟩ := p; simp at hs
  | succ n ih =>
      constructor
      · intro v pS pD pats jS jD ffoe hs hd hp
        cases v with
        | none =>
            refine ⟨none, ?_, by rw [pruneTree]⟩
            rw [diffTrees]
        | some t =>
            cases t with
            | file a m s =>
                refine ⟨none, ?_, by rw [pruneTree]⟩
                rw [diffTrees]
                simp [hp pD]
            | dir l =>
                rw [dotFirstO] at hd
                rw [dotFirstT.eq_def] at hd
                cases l with
                | nil => simp at hd
                | cons p0 rest =>
                    obtain ⟨k0, d0⟩ := p0
                    simp only [Bool.and_eq_true, decide_eq_true_eq] at hd
                    obtain ⟨hk0, hrest⟩ := hd
                    subst hk0
                    have hsz : sizeL rest ≤ n := by
                      have hc : sizeO (some (Tree.dir ((".", d0) :: rest))) =
                          1 + (1 + sizeO d0 + sizeL rest) := by simp
                      omega
                    obtain ⟨rs, hloop, hcopy, hes⟩ := ih.2 rest pS pD pats jS
                      jD ffoe hsz hrest hp
                    refine ⟨some (.dir ((".", none) ::
                      rs.map (fun p => (p.1, p.2.exSrc)))), ?_, ?_⟩
                    · rw [diffTrees]
                      simp only [hp pD, Bool.false_eq_true, if_false]
                      have ha : alookup "." ((".", d0) :: rest) = some d0 := by
                        simp [alookup_cons]
                      have he : aerase "." ((".", d0) :: rest) = rest := by
                        simp [aerase]
                      rw [ha, he, hloop]
                      simp only [bind, Except.bind]
                      rw [hcopy]
                    · rw [pruneTree]
                      rw [pruneChildren]
                      simp only [pruneTree]
                      rw [hes]
      · intro items pS pD pats jS jD ffoe hs hd hp
        cases items with
        | nil =>
            exact ⟨[], by rw [diffLoopSrc], rfl,
              by simp only [List.map_nil]; rw [pruneChildren]⟩
        | cons p rest =>
            obtain ⟨k, v⟩ := p
            rw [dotFirstL_cons, Bool.and_eq_true] at hd
            obtain ⟨hdv, hdr⟩ := hd
            have hv : sizeO v ≤ n := by
              have hc : sizeL ((k, v) :: rest) = 1 + sizeO v + sizeL rest := by
                simp
              omega
            have hr : sizeL rest ≤ n := by
              have hc : sizeL ((k, v) :: rest) = 1 + sizeO v + sizeL rest := by
                simp
              omega
            obtain ⟨es, hv1, hv2⟩ := ih.1 v (jS pS k) (jD pD k) pats jS jD
              ffoe hv hdv hp
            obtain ⟨rs, hloop, hcopy, hes⟩ := ih.2 rest pS pD pats jS jD ffoe
              hr hdr hp
            refine ⟨(k, ⟨none, v, es, none, none⟩) :: rs, ?_, ?_, ?_⟩
            · rw [diffLoopSrc]
              rw [hv1]
              simp only [bind, Except.bind]
              rw [hloop]
            · simp [hcopy]
            · simp only [List.map_cons]
              rw [pruneChildren.eq_def]
              simp only [hv2]
              exact hes

/-- C6 (counterexample): with `--dry-run` and *without* `--force`,
`main` passes `folder_file_overwrite_error = false`, so an unforced,
non-excluded file-over-directory conflict does **not** abort: `diff_trees`
returns the delete-destination/copy-source classification instead of the
fatal exit the claim requires for every run without the force flag. -/
theorem c6_counterexample_dry_run_no_abort :
    folderFileOverwriteError true false = false ∧
    diffTrees (some (.file 0 0 0)) (some (.dir [(".", some (.file 0 0 0))]))
      "s" "d" [] (fun a b => a ++ "/" ++ b) (fun a b => a ++ "/" ++ b)
      (folderFileOverwriteError true false) =
      .ok ⟨some (.dir [(".", some (.file 0 0 0))]), some (.file 0 0 0), none,
           some (.dir [(".", none)]), some (.dir [(".", none)])⟩ := by
  constructor
  · rfl
  · simp [diffTrees, anyMatch, folderFileOverwriteError]

/-- C6 (amended): a non-excluded type conflict is fatal
(`SystemExit`, exit code 1, no partitions) exactly when
`folder_file_overwrite_error = not dry_run and not force` is set, i.e. when
neither the force flag nor dry-run is given; otherwise `diff_trees` logs a
warning and classifies the destination subtree as delete and the source
subtree as copy — symmetrically for file-over-directory and
directory-over-file. -/
theorem c6_type_conflict_force_dry_run (a m s a' m' s' : Int)
    (ld ls : List (String × Option Tree)) (pS pD : String)
    (pats : List String) (jS jD : String → String → String)
    (dryRun force : Bool)
    (hp : ∀ q, anyMatch pats q = false)
    (hwf : dotFirstT (.dir ls) = true) :
    (folderFileOverwriteError dryRun force = true →
      diffTrees (some (.file a m s)) (some (.dir ld)) pS pD pats jS jD
          (folderFileOverwriteError dryRun force) =
        .error (.typeConflict pS pD) ∧
      diffTrees (some (.dir ls)) (some (.file a' m' s')) pS pD pats jS jD
          (folderFileOverwriteError dryRun force) =
        .error (.typeConflict pS pD)) ∧
    (folderFileOverwriteError dryRun force = false →
      diffTrees (some (.file a m s)) (some (.dir ld)) pS pD pats jS jD
          (folderFileOverwriteError dryRun force) =
        .ok ⟨some (.dir ld), some (.file a m s), none,
             some (.dir [(".", none)]), some (.dir [(".", none)])⟩ ∧
      ∃ es, diffTrees (some (.dir ls)) (some (.file a' m' s')) pS pD pats
            jS jD (folderFileOverwriteError dryRun force) =
          .ok ⟨some (.file a' m' s'), some (.dir ls), es, none, none⟩ ∧
        pruneTree es = none) := by
  rw [dotFirstT.eq_def] at hwf
  cases ls with
  | nil => simp at hwf
  | cons p0 rest =>
      obtain ⟨k0, d0⟩ := p0
      simp only [Bool.and_eq_true, decide_eq_true_eq] at hwf
      obtain ⟨hk0, hrest⟩ := hwf
      subst hk0
      have ha : alookup "." ((".", d0) :: rest) = some d0 := by
        simp [alookup_cons]
      have he : aerase "." ((".", d0) :: rest) = rest := by simp [aerase]
      obtain ⟨rs, hloop, hcopy, hes⟩ :=
        (diff_src_none_copies_aux (sizeL rest)).2 rest pS pD pats jS jD
          (folderFileOverwriteError dryRun force) le_rfl hrest hp
      constructor
      · intro hf
        constructor
        · rw [diffTrees]
          simp [hp pD, hf]
        · rw [diffTrees]
          simp only [hp pD, Bool.false_eq_true, if_false]
          rw [ha, he, hloop]
          simp only [bind, Except.bind]
          rw [hf]
          simp
      · intro hf
        constructor
        · rw [diffTrees]
          simp [hp pD, hf]
        · refine ⟨some (.dir ((".", none) ::
            rs.map (fun p => (p.1, p.2.exSrc)))), ?_, ?_⟩
          · rw [diffTrees]
            simp only [hp pD, Bool.false_eq_true, if_false]
            rw [ha, he, hloop]
            simp only [bind, Except.bind]
            rw [hf]
            simp only [Bool.false_eq_true, if_false]
            rw [hcopy]
          · rw [pruneTree]
            rw [pruneChildren]
            simp only [pruneTree]
            rw [hes]

/-- C6 witness: with `--force` (and no dry-run) a file-over-directory
conflict proceeds as delete of the destination directory plus copy of the
source file. -/
theorem c6_witness :
    diffTrees (some (.file 0 1 2)) (some (.dir [(".", some (.file 0 0 0))]))
      "s" "d" [] (fun a b => a ++ "/" ++ b) (fun a b => a ++ "/" ++ b)
      (folderFileOverwriteError false true) =
      .ok ⟨some (.dir [(".", some (.file 0 0 0))]), some (.file 0 1 2), none,
           some (.dir [(".", none)]), some (.dir [(".", none)])⟩ :=
  ((c6_type_conflict_force_dry_run 0 1 2 0 0 0
      [(".", some (.file 0 0 0))] [(".", some (.file 0 0 0))] "s" "d" []
      (fun a b => a ++ "/" ++ b) (fun a b => a ++ "/" ++ b) false true
      (fun _ => rfl)
      (by simp [dotFirstT, dotFirstL, dotFirstO])).2 rfl).1

/-! ## C7: `remove_excluded_folders_from_unaccounted_tree`

The Python loop drops only `"."` self-entries (wherever the excluded tree is
not `None` at that position); every other child key is retained and filtered
recursively — a child is *not* removed just because the excluded tree has an
entry at the same position. -/

theorem removeExcludedLoop_cons (k : String) (v : Option Tree)
    (rest : List (String × Option Tree)) (e : Tree) :
    removeExcludedLoop ((k, v) :: rest) e =
      (if k = "." then removeExcludedLoop rest e
      else
        (match e with
        | .file _ _ _ => .error ()
        | .dir le => do
            let v' ← removeExcluded v (popValue k le)
            let rest' ← removeExcludedLoop rest e
            .ok ((k, v') :: rest'))) := by
  rw [removeExcludedLoop.eq_def]

/-- The rebuilt dict never contains a `"."` key. -/
theorem removeExcludedLoop_no_dot (items : List (String × Option Tree))
    (e : Tree) (out : List (String × Option Tree))
    (h : removeExcludedLoop items e = .ok out) : alookup "." out = none := by
  induction items generalizing out with
  | nil =>
      rw [removeExcludedLoop] at h
      cases h
      simp
  | cons p rest ih =>
      obtain ⟨k, v⟩ := p
      rw [removeExcludedLoop_cons] at h
      by_cases hk : k = "."
      · rw [if_pos hk] at h
        exact ih out h
      · rw [if_neg hk] at h
        cases e with
        | file a m s => cases h
        | dir le =>
            simp only [bind, Except.bind] at h
            cases h1 : removeExcluded v (popValue k le) with
            | error e1 => rw [h1] at h; cases h
            | ok v' =>
                rw [h1] at h
                cases h2 : removeExcludedLoop rest (.dir le) with
                | error e2 => rw [h2] at h; cases h
                | ok rest' =>
                    rw [h2] at h
                    cases h
                    rw [alookup_cons, if_neg hk]
                    exact ih rest' h2

/-- Every non-`"."` entry of the input dict survives in the rebuilt dict,
with its value filtered against the excluded entry at the same key; in
particular a non-`"."` lookup that succeeds on the input succeeds on the
output. -/
theorem removeExcludedLoop_lookup (items : List (String × Option Tree))
    (e : Tree) (out : List (String × Option Tree))
    (h : removeExcludedLoop items e = .ok out) (k : String) (hk : k ≠ ".")
    (v : Option Tree) (hv : alookup k items = some v) :
    ∃ le v', e = .dir le ∧ alookup k out = some v' ∧
      removeExcluded v (popValue k le) = .ok v' := by
  induction items generalizing out with
  | nil => simp at hv
  | cons p rest ih =>
      obtain ⟨k0, v0⟩ := p
      rw [removeExcludedLoop_cons] at h
      by_cases hk0 : k0 = "."
      · rw [if_pos hk0] at h
        rw [alookup_cons] at hv
        rw [if_neg (by rw [hk0]; exact fun heq => hk heq.symm)] at hv
        exact ih out h hv
      · rw [if_neg hk0] at h
        cases e with
        | file a m s => cases h
        | dir le =>
            simp only [bind, Except.bind] at h
            cases h1 : removeExcluded v0 (popValue k0 le) with
            | error e1 => rw [h1] at h; cases h
            | ok v' =>
                rw [h1] at h
                cases h2 : removeExcludedLoop rest (.dir le) with
                | error e2 => rw [h2] at h; cases h
                | ok rest' =>
                    rw [h2] at h
                    cases h
                    rw [alookup_cons] at hv
                    by_cases hke : k0 = k
                    · rw [if_pos hke] at hv
                      cases hv
                      refine ⟨le, v', rfl, ?_, ?_⟩
                      · rw [alookup_cons, if_pos hke]
                      · exact hke ▸ h1
                    · rw [if_neg hke] at hv
                      obtain ⟨le2, v2, he2, hlk, hre⟩ := ih rest' h2 hv
                      cases he2
                      refine ⟨le, v2, rfl, ?_, hre⟩
                      rw [alookup_cons, if_neg hke]
                      exact hlk

/-- C7 (counterexample): the excluded tree has `a/k/g`; the unaccounted tree
has `a/k/f` (with `f ∉ E`).  The child `k` of `a` *is* present in the
excluded tree at the same position, yet it survives (even after pruning) in
the result of `remove_excluded_folders_from_unaccounted_tree` — contradicting
"a child of a survives in the result only if it is not present in E at the
same position".  (Only its `"."` self-entries were dropped.) -/
theorem c7_counterexample_child_survives :
    removeExcluded
      (some (.dir [("a", some (.dir [(".", some (.file 0 0 0)),
        ("k", some (.dir [(".", some (.file 0 0 0)),
          ("f", some (.file 0 0 3))]))]))]))
      (some (.dir [("a", some (.dir [("k",
        some (.dir [("g", some (.file 0 0 1))]))]))])) =
      .ok (some (.dir [("a", some (.dir [("k",
        some (.dir [("f", some (.file 0 0 3))]))]))])) ∧
    (lookupPath (some (.dir [("a", some (.dir [("k",
        some (.dir [("g", some (.file 0 0 1))]))]))])) ["a", "k"]).isSome =
      true ∧
    (lookupPath (pruneTree (some (.dir [("a", some (.dir [("k",
        some (.dir [("f", some (.file 0 0 3))]))]))]))) ["a", "k"]).isSome =
      true := by
  refine ⟨?_, ?_, ?_⟩
  · simp [removeExcluded, removeExcludedLoop, popValue, alookup, bind,
      Except.bind, Except.map]
  · simp [lookupPath, alookup]
  · simp [pruneTree, pruneChildren, lookupPath, alookup]

/-- C7 (amended): if the excluded tree has an entry at directory `a` and the
unaccounted tree has a dict there, the result's entry at `a` carries no `"."`
self-entry — `a` itself is never offered for deletion — while every non-`"."`
child of `a` is retained (recursively filtered), even when present in the
excluded tree at the same position. -/
theorem c7_excluded_ancestor_self_entry_dropped
    (lu le lua : List (String × Option Tree)) (a : String) (ea : Tree)
    (r : Option Tree) (hne : a ≠ ".")
    (hE : alookup a le = some (some ea))
    (hU : alookup a lu = some (some (.dir lua)))
    (h : removeExcluded (some (.dir lu)) (some (.dir le)) = .ok r) :
    ∃ la', lookupPath r [a] = some (.dir la') ∧
      alookup "." la' = none ∧
      ∀ k v, k ≠ "." → alookup k lua = some v →
        (alookup k la').isSome = true := by
  rw [removeExcluded] at h
  cases hloop : removeExcludedLoop lu (.dir le) with
  | error e1 => rw [hloop] at h; cases h
  | ok out =>
      rw [hloop] at h
      simp only [Except.map] at h
      obtain ⟨le', va, he', hlk, hra⟩ :=
        removeExcludedLoop_lookup lu (.dir le) out hloop a hne _ hU
      cases he'
      have hpop : popValue a le = some ea := by
        unfold popValue
        rw [hE]
      rw [hpop] at hra
      rw [removeExcluded] at hra
      cases hloop2 : removeExcludedLoop lua ea with
      | error e2 => rw [hloop2] at hra; cases hra
      | ok out2 =>
          rw [hloop2] at hra
          simp only [Except.map] at hra
          refine ⟨out2, ?_, ?_, ?_⟩
          · have hr : r = some (.dir out) := by
              injection h with h'
              exact h'.symm
            subst hr
            have hva : va = some (.dir out2) := by
              injection hra with h'
              exact h'.symm
            rw [lookupPath_dir, hlk]
            simp [hva]
          · exact removeExcludedLoop_no_dot lua ea out2 hloop2
          · intro k v hk hv
            obtain ⟨le2, v2, -, hlk2, -⟩ :=
              removeExcludedLoop_lookup lua ea out2 hloop2 k hk v hv
            rw [hlk2]
            rfl

/-- C7 witness: applying the amended theorem at a concrete pair of trees. -/
theorem c7_witness :
    ∃ la', lookupPath
        (some (.dir [("a", some (.dir [("k",
          some (.dir [("f", some (.file 0 0 3))]))]))])) ["a"] =
        some (.dir la') ∧
      alookup "." la' = none ∧
      ∀ k v, k ≠ "." → alookup k
          [(".", some (Tree.file 0 0 0)),
           ("k", some (Tree.dir [(".", some (.file 0 0 0)),
             ("f", some (.file 0 0 3))]))] = some v →
        (alookup k la').isSome = true :=
  c7_excluded_ancestor_self_entry_dropped
    [("a", some (.dir [(".", some (.file 0 0 0)),
      ("k", some (.dir [(".", some (.file 0 0 0)),
        ("f", some (.file 0 0 3))]))]))]
    [("a", some (.dir [("k", some (.dir [("g", some (.file 0 0 1))]))]))]
    [(".", some (.file 0 0 0)),
     ("k", some (.dir [(".", some (.file 0 0 0)),
       ("f", some (.file 0 0 3))]))]
    "a" (.dir [("k", some (.dir [("g", some (.file 0 0 1))]))])
    (some (.dir [("a", some (.dir [("k",
      some (.dir [("f", some (.file 0 0 3))]))]))]))
    (by decide) (by simp [alookup]) (by simp [alookup])
    (by simp [removeExcluded, removeExcludedLoop, popValue, alookup, bind,
      Except.bind, Except.map])

/-! ## C5: diffing two identical snapshots is a no-op

Well-formedness below captures what is true of every snapshot produced by
`get_files_tree` (and is implicitly assumed by `diff_trees`' `pop(".")`
calls): every dict has a `"."` entry, its keys are distinct (Python dicts
cannot repeat keys), and the children are well-formed in turn. -/

/-- Distinctness of a dict's keys (automatic for a Python dict). -/
def keysNodup : List (String × Option Tree) → Bool
  | [] => true
  | (k, _) :: rest => !(rest.any fun p => p.1 == k) && keysNodup rest

mutual

/-- Snapshot well-formedness: every dict contains a `"."` entry, has
distinct keys, and has well-formed children. -/
def wfTree : Option Tree → Bool
  | none => true
  | some (.file _ _ _) => true
  | some (.dir l) => (alookup "." l).isSome && keysNodup l && wfL l

/-- Entry-list version of `wfTree`. -/
def wfL : List (String × Option Tree) → Bool
  | [] => true
  | (_, v) :: rest => wfTree v && wfL rest

end

theorem wfL_cons (k : String) (v : Option Tree)
    (rest : List (String × Option Tree)) :
    wfL ((k, v) :: rest) = (wfTree v && wfL rest) := by
  rw [wfL.eq_def]

theorem wfTree_dir (l : List (String × Option Tree)) :
    wfTree (some (.dir l)) =
      ((alookup "." l).isSome && keysNodup l && wfL l) := by
  rw [wfTree.eq_def]

theorem wfL_mem (l : List (String × Option Tree)) (k : String)
    (v : Option Tree) (h : wfL l = true) (hm : (k, v) ∈ l) :
    wfTree v = true := by
  induction l with
  | nil => simp at hm
  | cons p rest ih =>
      obtain ⟨k0, v0⟩ := p
      rw [wfL_cons, Bool.and_eq_true] at h
      rcases List.mem_cons.mp hm with h1 | h2
      · cases h1
        exact h.1
      · exact ih h.2 h2

theorem wfL_of_mem (l2 l1 : List (String × Option Tree))
    (hs : ∀ p ∈ l2, p ∈ l1) (h : wfL l1 = true) : wfL l2 = true := by
  induction l2 with
  | nil => rw [wfL]
  | cons p rest ih =>
      obtain ⟨k, v⟩ := p
      rw [wfL_cons, Bool.and_eq_true]
      exact ⟨wfL_mem l1 k v h (hs _ (List.mem_cons_self _ _)),
        ih fun q hq => hs q (List.mem_cons_of_mem _ hq)⟩

theorem alookup_of_mem_nodup (l : List (String × Option Tree)) (k : String)
    (v : Option Tree) (hn : keysNodup l = true) (hm : (k, v) ∈ l) :
    alookup k l = some v := by
  induction l with
  | nil => simp at hm
  | cons p rest ih =>
      obtain ⟨k0, v0⟩ := p
      rw [keysNodup, Bool.and_eq_true] at hn
      rcases List.mem_cons.mp hm with h1 | h2
      · cases h1
        rw [alookup_cons, if_pos rfl]
      · rw [alookup_cons]
        by_cases hk : k0 = k
        · exfalso
          subst hk
          have : rest.any (fun p => p.1 == k0) = true := by
            refine List.any_eq_true.mpr ⟨(k0, v), h2, ?_⟩
            simp
          simp [this] at hn
        · rw [if_neg hk]
          exact ih hn.2 h2

theorem keysNodup_aerase (k : String) (l : List (String × Option Tree))
    (h : keysNodup l = true) : keysNodup (aerase k l) = true := by
  induction l with
  | nil => rw [aerase]; exact h
  | cons p rest ih =>
      obtain ⟨k0, v0⟩ := p
      rw [keysNodup, Bool.and_eq_true] at h
      rw [aerase]
      by_cases hk : k0 = k
      · rw [if_pos hk]
        exact h.2
      · rw [if_neg hk, keysNodup, Bool.and_eq_true]
        refine ⟨?_, ih h.2⟩
        have := h.1
        simp only [Bool.not_eq_true'] at this ⊢
        rcases hany : (aerase k rest).any (fun p => p.1 == k0) with _ | _
        · rfl
        · obtain ⟨q, hq, hq2⟩ := List.any_eq_true.mp hany
          have : rest.any (fun p => p.1 == k0) = true :=
            List.any_eq_true.mpr ⟨q, mem_aerase k q rest hq, hq2⟩
          simp [this] at h

theorem not_mem_aerase_self (k : String) (l : List (String × Option Tree))
    (v : Option Tree) (hn : keysNodup l = true) :
    (k, v) ∈ aerase k l → False := by
  induction l with
  | nil => intro h; simp [aerase] at h
  | cons p rest ih =>
      obtain ⟨k0, v0⟩ := p
      rw [keysNodup, Bool.and_eq_true] at hn
      rw [aerase]
      by_cases hk : k0 = k
      · rw [if_pos hk]
        intro hm
        subst hk
        have : rest.any (fun p => p.1 == k0) = true :=
          List.any_eq_true.mpr ⟨(k0, v), hm, by simp⟩
        simp [this] at hn
      · rw [if_neg hk]
        intro hm
        rcases List.mem_cons.mp hm with h1 | h2
        · cases h1
          exact hk rfl
        · exact ih hn.2 h2

theorem mem_foldl_aerase (ks l : List (String × Option Tree))
    (p : String × Option Tree)
    (h : p ∈ ks.foldl (fun r q => aerase q.1 r) l) : p ∈ l := by
  induction ks generalizing l with
  | nil => simpa using h
  | cons q rest ih =>
      have h1 := ih (aerase q.1 l) h
      exact mem_aerase _ _ _ h1

theorem alookup_foldl_aerase (ks l : List (String × Option Tree))
    (k : String) (hk : ∀ q ∈ ks, q.1 ≠ k) :
    alookup k (ks.foldl (fun r q => aerase q.1 r) l) = alookup k l := by
  induction ks generalizing l with
  | nil => simp
  | cons q rest ih =>
      rw [List.foldl_cons]
      rw [ih (aerase q.1 l) fun q' hq' => hk q' (List.mem_cons_of_mem _ hq')]
      exact alookup_aerase_ne q.1 k l
        fun h => hk q (List.mem_cons_self _ _) h.symm

theorem pruneChildren_all_none (l : List (String × Option Tree))
    (h : ∀ k v, (k, v) ∈ l → pruneTree v = none) : pruneChildren l = [] := by
  induction l with
  | nil => rw [pruneChildren]
  | cons p rest ih =>
      obtain ⟨k, v⟩ := p
      rw [pruneChildren.eq_def]
      simp only [h k v (List.mem_cons_self _ _)]
      exact ih fun k' v' hm => h k' v' (List.mem_cons_of_mem _ hm)

/-- Diffing an absent source against a well-formed destination succeeds
(for any exclusion patterns) with a delete tree that prunes to `None` and a
`None` copy tree. -/
theorem diff_none_dst_aux (n : Nat) :
    (∀ d pS pD pats jS jD ffoe, sizeO d ≤ n → wfTree d = true →
      ∃ out, diffTrees none d pS pD pats jS jD ffoe = .ok out ∧
        pruneTree out.delete = none ∧ out.copy = none) ∧
    (∀ children pS pD pats jS jD ffoe, sizeL children ≤ n →
      wfL children = true →
      ∃ rs, diffLoopDst children pS pD pats jS jD ffoe = .ok rs ∧
        ∀ k r, (k, r) ∈ rs → pruneTree r.delete = none) := by
  induction n with
  | zero =>
      constructor
      · intro d pS pD pats jS jD ffoe hs hw
        cases d with
        | none =>
            exact ⟨⟨none, none, none, none, none⟩, by rw [diffTrees],
              by rw [pruneTree], rfl⟩
        | some t => cases t <;> simp at hs
      · intro children pS pD pats jS jD ffoe hs hw
        cases children with
        | nil => exact ⟨[], by rw [diffLoopDst], by simp⟩
        | cons p rest => obtain ⟨k, v⟩ := p; simp at hs
  | succ n ih =>
      constructor
      · intro d pS pD pats jS jD ffoe hs hw
        cases d with
        | none =>
            exact ⟨⟨none, none, none, none, none⟩, by rw [diffTrees],
              by rw [pruneTree], rfl⟩
        | some t =>
            cases t with
            | file a m s =>
                cases hex : anyMatch pats pD with
                | true =>
                    refine ⟨⟨none, none, none, none, some (.file a m s)⟩,
                      ?_, by rw [pruneTree], rfl⟩
                    rw [diffTrees]
                    simp [hex]
                | false =>
                    refine ⟨⟨none, none, none, some (.file a m s), none⟩,
                      ?_, by rw [pruneTree], rfl⟩
                    rw [diffTrees]
                    simp [hex]
            | dir l =>
                rw [wfTree_dir] at hw
                simp only [Bool.and_eq_true, Option.isSome_iff_exists] at hw
                obtain ⟨⟨⟨dotD, hdot⟩, hnd⟩, hwl⟩ := hw
                cases hex : anyMatch pats pD with
                | true =>
                    refine ⟨⟨some (.dir [(".", none)]), none, none,
                      some (.dir [(".", none)]), some (.dir l)⟩, ?_, ?_, rfl⟩
                    · rw [diffTrees]
                      simp [hex]
                    · rw [pruneTree]
                      rw [pruneChildren_all_none]
                      intro k v hm
                      rcases List.mem_singleton.mp hm with h1
                      cases h1
                      rw [pruneTree]
                | false =>
                    have hsz : sizeL (aerase "." l) ≤ n := by
                      have h1 := sizeL_aerase_le "." l
                      have h2 : sizeO (some (Tree.dir l)) = 1 + sizeL l := by
                        simp
                      omega
                    have hwl' : wfL (aerase "." l) = true :=
                      wfL_of_mem _ l (fun p hp => mem_aerase _ _ _ hp) hwl
                    obtain ⟨rs, hloop, hdel⟩ := ih.2 (aerase "." l) pS pD
                      pats jS jD ffoe hsz hwl'
                    refine ⟨⟨some (.dir ((".", none) ::
                        rs.map (fun p => (p.1, p.2.delete)))), none, none,
                      some (.dir ((".", dotD) ::
                        rs.map (fun p => (p.1, p.2.unDst)))),
                      some (.dir ((".", none) ::
                        rs.map (fun p => (p.1, p.2.exDst))))⟩, ?_, ?_, rfl⟩
                    · rw [diffTrees]
                      simp only [hex, Bool.false_eq_true, if_false]
                      rw [hdot, hloop]
                      simp only [bind, Except.bind]
                    · rw [pruneTree]
                      rw [pruneChildren_all_none]
                      intro k v hm
                      rcases List.mem_cons.mp hm with h1 | h2
                      · cases h1
                        rw [pruneTree]
                      · obtain ⟨⟨k', r⟩, hmem, heq⟩ := List.mem_map.mp h2
                        cases heq
                        exact hdel k' r hmem
      · intro children pS pD pats jS jD ffoe hs hw
        cases children with
        | nil => exact ⟨[], by rw [diffLoopDst], by simp⟩
        | cons p rest =>
            obtain ⟨k, v⟩ := p
            rw [wfL_cons, Bool.and_eq_true] at hw
            have hv : sizeO v ≤ n := by
              have hc : sizeL ((k, v) :: rest) = 1 + sizeO v + sizeL rest := by
                simp
              omega
            have hr : sizeL rest ≤ n := by
              have hc : sizeL ((k, v) :: rest) = 1 + sizeO v + sizeL rest := by
                simp
              omega
            obtain ⟨out, hout, hd, hc⟩ := ih.1 v (jS pS k) (jD pD k) pats jS
              jD ffoe hv hw.1
            obtain ⟨rs, hloop, hdel⟩ := ih.2 rest pS pD pats jS jD ffoe hr
              hw.2
            refine ⟨(k, out) :: rs, ?_, ?_⟩
            · rw [diffLoopDst]
              rw [hout]
              simp only [bind, Except.bind]
              rw [hloop]
            · intro k' r hm
              rcases List.mem_cons.mp hm with h1 | h2
              · cases h1
                exact hd
              · exact hdel k' r h2

/-- Diffing a well-formed tree against an equal copy of itself (empty
exclusion list) succeeds, and both the delete and copy outputs prune to
`None`. -/
theorem diff_self_aux (n : Nat) :
    (∀ t pS pD jS jD ffoe, sizeO t ≤ n → wfTree t = true →
      ∃ out, diffTrees t t pS pD [] jS jD ffoe = .ok out ∧
        pruneTree out.delete = none ∧ pruneTree out.copy = none) ∧
    (∀ src rem pS pD jS jD ffoe, sizeL src ≤ n → keysNodup src = true →
      wfL src = true → (∀ k v, (k, v) ∈ src → alookup k rem = some v) →
      ∃ rs, diffLoopBoth src rem pS pD [] jS jD ffoe = .ok rs ∧
        ∀ k r, (k, r) ∈ rs →
          pruneTree r.delete = none ∧ pruneTree r.copy = none) := by
  induction n with
  | zero =>
      constructor
      · intro t pS pD jS jD ffoe hs hw
        cases t with
        | none =>
            exact ⟨⟨none, none, none, none, none⟩, by rw [diffTrees],
              by rw [pruneTree], by rw [pruneTree]⟩
        | some t' => cases t' <;> simp at hs
      · intro src rem pS pD jS jD ffoe hs hn hw ha
        cases src with
        | nil => exact ⟨[], by rw [diffLoopBoth], by simp⟩
        | cons p rest => obtain ⟨k, v⟩ := p; simp at hs
  | succ n ih =>
      constructor
      · intro t pS pD jS jD ffoe hs hw
        cases t with
        | none =>
            exact ⟨⟨none, none, none, none, none⟩, by rw [diffTrees],
              by rw [pruneTree], by rw [pruneTree]⟩
        | some t' =>
            cases t' with
            | file a m s =>
                refine ⟨⟨none, none, none, none, none⟩, ?_,
                  by rw [pruneTree], by rw [pruneTree]⟩
                rw [diffTrees]
                simp [anyMatch]
            | dir l =>
                rw [wfTree_dir] at hw
                simp only [Bool.and_eq_true, Option.isSome_iff_exists] at hw
                obtain ⟨⟨⟨dotD, hdot⟩, hnd⟩, hwl⟩ := hw
                have hszl : sizeL l ≤ n := by
                  have h2 : sizeO (some (Tree.dir l)) = 1 + sizeL l := by simp
                  omega
                have hsz : sizeL (aerase "." l) ≤ n := by
                  have h1 := sizeL_aerase_le "." l
                  omega
                have hnd' : keysNodup (aerase "." l) = true :=
                  keysNodup_aerase "." l hnd
                have hwl' : wfL (aerase "." l) = true :=
                  wfL_of_mem _ l (fun p hp => mem_aerase _ _ _ hp) hwl
                have halign : ∀ k v, (k, v) ∈ aerase "." l →
                    alookup k l = some v := fun k v hm =>
                  alookup_of_mem_nodup l k v hnd (mem_aerase _ _ _ hm)
                obtain ⟨rs1, hloop1, hprune1⟩ := ih.2 (aerase "." l) l pS pD
                  jS jD ffoe hsz hnd' hwl' halign
                have hdots : ∀ q ∈ aerase "." l, q.1 ≠ "." := by
                  intro q hq hq1
                  apply not_mem_aerase_self "." l q.2 hnd
                  have hq2 : q = (q.1, q.2) := rfl
                  rw [hq2, hq1] at hq
                  exact hq
                have hremdot : alookup "."
                    ((aerase "." l).foldl (fun r p => aerase p.1 r) l) =
                    some dotD := by
                  rw [alookup_foldl_aerase _ _ _ hdots]
                  exact hdot
                have hleft : wfL (aerase "."
                    ((aerase "." l).foldl (fun r p => aerase p.1 r) l)) =
                    true := by
                  refine wfL_of_mem _ l (fun p hp => ?_) hwl
                  exact mem_foldl_aerase _ _ _ (mem_aerase _ _ _ hp)
                have hleftsz : sizeL (aerase "."
                    ((aerase "." l).foldl (fun r p => aerase p.1 r) l)) ≤
                    sizeL l := by
                  calc sizeL (aerase "."
                      ((aerase "." l).foldl (fun r p => aerase p.1 r) l)) ≤
                      sizeL ((aerase "." l).foldl (fun r p => aerase p.1 r) l) :=
                        sizeL_aerase_le _ _
                    _ ≤ sizeL l := sizeL_eraseFold_le _ l
                obtain ⟨rs2, hloop2, hdel2⟩ :=
                  (diff_none_dst_aux (sizeL l)).2
                    (aerase "." ((aerase "." l).foldl
                      (fun r p => aerase p.1 r) l)) pS pD [] jS jD ffoe
                    hleftsz hleft
                refine ⟨⟨some (.dir ((".", none) ::
                    (rs1.map (fun p => (p.1, p.2.delete)) ++
                     rs2.map (fun p => (p.1, p.2.delete))))),
                  some (.dir ((".", none) :: rs1.map (fun p => (p.1, p.2.copy)))),
                  some (.dir ((".", none) :: rs1.map (fun p => (p.1, p.2.exSrc)))),
                  some (.dir ((".", none) ::
                    (rs1.map (fun p => (p.1, p.2.unDst)) ++
                     rs2.map (fun p => (p.1, p.2.unDst))))),
                  some (.dir ((".", none) ::
                    (rs1.map (fun p => (p.1, p.2.exDst)) ++
                     rs2.map (fun p => (p.1, p.2.exDst)))))⟩, ?_, ?_, ?_⟩
                · rw [diffTrees]
                  simp only [anyMatch, List.any_nil, Bool.false_eq_true,
                    if_false]
                  rw [hdot]
                  rw [hloop1]
                  simp only [bind, Except.bind]
                  rw [hremdot, hloop2]
                · rw [pruneTree]
                  rw [pruneChildren_all_none]
                  intro k v hm
                  rcases List.mem_cons.mp hm with h1 | h2
                  · cases h1
                    rw [pruneTree]
                  · rcases List.mem_append.mp h2 with h3 | h3
                    · obtain ⟨⟨k', r⟩, hmem, heq⟩ := List.mem_map.mp h3
                      cases heq
                      exact (hprune1 k' r hmem).1
                    · obtain ⟨⟨k', r⟩, hmem, heq⟩ := List.mem_map.mp h3
                      cases heq
                      exact hdel2 k' r hmem
                · rw [pruneTree]
                  rw [pruneChildren_all_none]
                  intro k v hm
                  rcases List.mem_cons.mp hm with h1 | h2
                  · cases h1
                    rw [pruneTree]
                  · obtain ⟨⟨k', r⟩, hmem, heq⟩ := List.mem_map.mp h2
                    cases heq
                    exact (hprune1 k' r hmem).2
      · intro src rem pS pD jS jD ffoe hs hn hw ha
        cases src with
        | nil => exact ⟨[], by rw [diffLoopBoth], by simp⟩
        | cons p rest =>
            obtain ⟨k, v⟩ := p
            rw [wfL_cons, Bool.and_eq_true] at hw
            rw [keysNodup, Bool.and_eq_true] at hn
            have hv : sizeO v ≤ n := by
              have hc : sizeL ((k, v) :: rest) = 1 + sizeO v + sizeL rest := by
                simp
              omega
            have hr : sizeL rest ≤ n := by
              have hc : sizeL ((k, v) :: rest) = 1 + sizeO v + sizeL rest := by
                simp
              omega
            have hpop : popValue k rem = v := by
              unfold popValue
              rw [ha k v (List.mem_cons_self _ _)]
            obtain ⟨out, hout, hd, hc⟩ := ih.1 v (jS pS k) (jD pD k) jS jD
              ffoe hv hw.1
            have ha' : ∀ k' v', (k', v') ∈ rest →
                alookup k' (aerase k rem) = some v' := by
              intro k' v' hm
              have hne : k' ≠ k := by
                intro heq
                subst heq
                have : rest.any (fun p => p.1 == k') = true :=
                  List.any_eq_true.mpr ⟨(k', v'), hm, by simp⟩
                simp [this] at hn
              rw [alookup_aerase_ne k k' rem hne]
              exact ha k' v' (List.mem_cons_of_mem _ hm)
            obtain ⟨rs, hloop, hprune⟩ := ih.2 rest (aerase k rem) pS pD jS
              jD ffoe hr hn.2 hw.2 ha'
            refine ⟨(k, out) :: rs, ?_, ?_⟩
            · rw [diffLoopBoth]
              rw [hpop, hout]
              simp only [bind, Except.bind]
              rw [hloop]
            · intro k' r hm
              rcases List.mem_cons.mp hm with h1 | h2
              · cases h1
                exact ⟨hd, hc⟩
              · exact hprune k' r h2

/-- C5: diffing a well-formed snapshot against an equal copy of itself with
an empty exclusion list succeeds and yields delete and copy partitions that
prune to empty (`None`). -/
theorem c5_diff_identical_prunes_empty (t : Option Tree) (pS pD : String)
    (jS jD : String → String → String) (ffoe : Bool)
    (hw : wfTree t = true) :
    ∃ out, diffTrees t t pS pD [] jS jD ffoe = .ok out ∧
      pruneTree out.delete = none ∧ pruneTree out.copy = none :=
  (diff_self_aux (sizeO t)).1 t pS pD jS jD ffoe le_rfl hw

/-- C5 witness: a concrete snapshot (a directory holding one file) diffed
against itself. -/
theorem c5_witness :
    ∃ out, diffTrees
        (some (.dir [(".", some (.file 0 0 0)), ("x", some (.file 0 5 9))]))
        (some (.dir [(".", some (.file 0 0 0)), ("x", some (.file 0 5 9))]))
        "s" "d" [] (fun a b => a ++ "/" ++ b) (fun a b => a ++ "/" ++ b)
        true = .ok out ∧
      pruneTree out.delete = none ∧ pruneTree out.copy = none :=
  c5_diff_identical_prunes_empty
    (some (.dir [(".", some (.file 0 0 0)), ("x", some (.file 0 5 9))]))
    "s" "d" (fun a b => a ++ "/" ++ b) (fun a b => a ++ "/" ++ b) true
    (by simp [wfTree, wfL, keysNodup, alookup])

/-! ## C3: partition exclusivity

Every entry of a successful child-loop result comes from a successful
recursive `diff_trees` call on the child with the same key. -/

theorem diffLoopDst_lookup (children : List (String × Option Tree))
    (pS pD : String) (pats : List String) (jS jD : String → String → String)
    (ffoe : Bool) (rs : List (String × DiffOut))
    (h : diffLoopDst children pS pD pats jS jD ffoe = .ok rs) (k : String) :
    (alookup k children = none ∧ alookup k rs = none) ∨
    (∃ v r, alookup k children = some v ∧ alookup k rs = some r ∧
      diffTrees none v (jS pS k) (jD pD k) pats jS jD ffoe = .ok r) := by
  induction children generalizing rs with
  | nil =>
      rw [diffLoopDst] at h
      cases h
      exact Or.inl ⟨rfl, rfl⟩
  | cons p rest ih =>
      obtain ⟨k0, v0⟩ := p
      rw [diffLoopDst] at h
      simp only [bind, Except.bind] at h
      cases h1 : diffTrees none v0 (jS pS k0) (jD pD k0) pats jS jD ffoe with
      | error e => rw [h1] at h; cases h
      | ok r0 =>
          rw [h1] at h
          cases h2 : diffLoopDst rest pS pD pats jS jD ffoe with
          | error e => rw [h2] at h; cases h
          | ok rs' =>
              rw [h2] at h
              cases h
              by_cases hk : k0 = k
              · subst hk
                exact Or.inr ⟨v0, r0, by rw [alookup_cons, if_pos rfl],
                  by rw [alookup_cons, if_pos rfl], h1⟩
              · rw [alookup_cons, if_neg hk, alookup_cons, if_neg hk]
                exact ih rs' h2

theorem diffLoopSrc_lookup (children : List (String × Option Tree))
    (pS pD : String) (pats : List String) (jS jD : String → String → String)
    (ffoe : Bool) (rs : List (String × DiffOut))
    (h : diffLoopSrc children pS pD pats jS jD ffoe = .ok rs) (k : String) :
    (alookup k children = none ∧ alookup k rs = none) ∨
    (∃ v r, alookup k children = some v ∧ alookup k rs = some r ∧
      diffTrees v none (jS pS k) (jD pD k) pats jS jD ffoe = .ok r) := by
  induction children generalizing rs with
  | nil =>
      rw [diffLoopSrc] at h
      cases h
      exact Or.inl ⟨rfl, rfl⟩
  | cons p rest ih =>
      obtain ⟨k0, v0⟩ := p
      rw [diffLoopSrc] at h
      simp only [bind, Except.bind] at h
      cases h1 : diffTrees v0 none (jS pS k0) (jD pD k0) pats jS jD ffoe with
      | error e => rw [h1] at h; cases h
      | ok r0 =>
          rw [h1] at h
          cases h2 : diffLoopSrc rest pS pD pats jS jD ffoe with
          | error e => rw [h2] at h; cases h
          | ok rs' =>
              rw [h2] at h
              cases h
              by_cases hk : k0 = k
              · subst hk
                exact Or.inr ⟨v0, r0, by rw [alookup_cons, if_pos rfl],
                  by rw [alookup_cons, if_pos rfl], h1⟩
              · rw [alookup_cons, if_neg hk, alookup_cons, if_neg hk]
                exact ih rs' h2

theorem diffLoopBoth_lookup (src rem : List (String × Option Tree))
    (pS pD : String) (pats : List String) (jS jD : String → String → String)
    (ffoe : Bool) (rs : List (String × DiffOut))
    (h : diffLoopBoth src rem pS pD pats jS jD ffoe = .ok rs) (k : String) :
    (alookup k src = none ∧ alookup k rs = none) ∨
    (∃ v pd r, alookup k src = some v ∧ alookup k rs = some r ∧
      sizeO pd ≤ sizeL rem ∧
      diffTrees v pd (jS pS k) (jD pD k) pats jS jD ffoe = .ok r) := by
  induction src generalizing rem rs with
  | nil =>
      rw [diffLoopBoth] at h
      cases h
      exact Or.inl ⟨rfl, rfl⟩
  | cons p rest ih =>
      obtain ⟨k0, v0⟩ := p
      rw [diffLoopBoth] at h
      simp only [bind, Except.bind] at h
      cases h1 : diffTrees v0 (popValue k0 rem) (jS pS k0) (jD pD k0) pats
          jS jD ffoe with
      | error e => rw [h1] at h; cases h
      | ok r0 =>
          rw [h1] at h
          cases h2 : diffLoopBoth rest (aerase k0 rem) pS pD pats jS jD
              ffoe with
          | error e => rw [h2] at h; cases h
          | ok rs' =>
              rw [h2] at h
              cases h
              by_cases hk : k0 = k
              · subst hk
                exact Or.inr ⟨v0, popValue k0 rem, r0,
                  by rw [alookup_cons, if_pos rfl],
                  by rw [alookup_cons, if_pos rfl],
                  sizeO_popValue_le k0 rem, h1⟩
              · rw [alookup_cons, if_neg hk, alookup_cons, if_neg hk]
                rcases ih (aerase k0 rem) rs' h2 with h3 | ⟨v, pd, r, hv, hr,
                    hsz, hd⟩
                · exact Or.inl h3
                · exact Or.inr ⟨v, pd, r, hv, hr,
                    le_trans hsz (sizeL_aerase_le k0 rem), hd⟩

/-- The outcome of the `"."`-headed dicts that `diff_trees` builds. -/
theorem outcome_built_nil (x : Option Tree)
    (l : List (String × Option Tree)) :
    outcome (some (.dir ((".", x) :: l))) [] = x.isSome := by
  rw [outcome_dir_nil]
  simp [alookup_cons]

theorem outcome_built_dot (x : Option Tree)
    (l : List (String × Option Tree)) (p : List String) :
    outcome (some (.dir ((".", x) :: l))) ("." :: p) = outcome x p := by
  rw [outcome_dir_cons]
  simp [alookup_cons]

theorem outcome_built_cons (x : Option Tree)
    (l : List (String × Option Tree)) (k : String) (p : List String)
    (hk : k ≠ ".") :
    outcome (some (.dir ((".", x) :: l))) (k :: p) =
      (match alookup k l with
       | some v => outcome v p
       | none => false) := by
  rw [outcome_dir_cons]
  rw [alookup_cons, if_neg fun h => hk h.symm]

/-- The `{".": None}` placeholder dict has no outcome at any path. -/
theorem outcome_dot_none (p : List String) :
    outcome (some (.dir [(".", none)])) p = false := by
  cases p with
  | nil => rw [outcome_built_nil]; rfl
  | cons k p' =>
      by_cases hk : k = "."
      · subst hk
        rw [outcome_built_dot]
        simp
      · rw [outcome_built_cons _ _ _ _ hk]
        rfl

theorem okVector_mask_dst : ∀ d c es ud ed : Bool,
    okVector d c es ud ed = true → okVector d false false ud ed = true := by
  decide

theorem okVector_mask_src : ∀ d c es ud ed : Bool,
    okVector d c es ud ed = true → okVector false c es false false = true := by
  decide

theorem diff_vector_aux (n : Nat) :
    ∀ s d pS pD pats jS jD ffoe out,
      sizeO s + sizeO d ≤ n →
      diffTrees s d pS pD pats jS jD ffoe = .ok out →
      ∀ p, okVector (outcome out.delete p) (outcome out.copy p)
        (outcome out.exSrc p) (outcome out.unDst p)
        (outcome out.exDst p) = true := by
  induction n with
  | zero =>
      intro s d pS pD pats jS jD ffoe out hsz h p
      cases s with
      | some t => cases t <;> simp at hsz
      | none =>
          cases d with
          | some t => cases t <;> simp at hsz
          | none =>
              rw [diffTrees] at h
              injection h with h
              subst h
              simp [okVector]
  | succ n ih =>
      intro s d pS pD pats jS jD ffoe out hsz h p
      cases s with
      | none =>
          cases d with
          | none =>
              rw [diffTrees] at h
              injection h with h
              subst h
              simp [okVector]
          | some td =>
              cases td with
              | file a2 m2 sz2 =>
                  rw [diffTrees] at h
                  cases hex : anyMatch pats pD with
                  | true =>
                      rw [hex, if_pos rfl] at h
                      injection h with h
                      subst h
                      cases p <;> simp [okVector]
                  | false =>
                      rw [hex, if_neg Bool.false_ne_true] at h
                      injection h with h
                      subst h
                      cases p <;> simp [okVector]
              | dir ld =>
                  rw [diffTrees] at h
                  cases hex : anyMatch pats pD with
                  | true =>
                      rw [hex, if_pos rfl] at h
                      injection h with h
                      subst h
                      simp [okVector, outcome_dot_none]
                  | false =>
                      rw [hex, if_neg Bool.false_ne_true] at h
                      cases hdot : alookup "." ld with
                      | none => rw [hdot] at h; cases h
                      | some dotD =>
                          rw [hdot] at h
                          simp only [bind, Except.bind] at h
                          cases hloop : diffLoopDst (aerase "." ld) pS pD
                              pats jS jD ffoe with
                          | error e => rw [hloop] at h; cases h
                          | ok rs =>
                              rw [hloop] at h
                              injection h with h
                              subst h
                              cases p with
                              | nil =>
                                  simp only [outcome_built_nil, outcome_none]
                                  simp [okVector]
                              | cons k p' =>
                                  by_cases hk : k = "."
                                  · subst hk
                                    simp only [outcome_built_dot,
                                      outcome_none]
                                    simp [okVector]
                                  · simp only [outcome_built_cons _ _ _ _ hk,
                                      outcome_none, alookup_map]
                                    cases hr : alookup k rs with
                                    | none => simp [okVector]
                                    | some r =>
                                        simp only [hr, Option.map_some']
                                        rcases diffLoopDst_lookup _ _ _ _ _ _
                                            _ _ hloop k with
                                          ⟨-, hno⟩ | ⟨v, r', hv, hr', hcall⟩
                                        · rw [hno] at hr; cases hr
                                        · rw [hr'] at hr
                                          injection hr with hr
                                          subst hr
                                          have hszv : sizeO v ≤ n := by
                                            have h1 := sizeO_alookup_le _ _ _ hv
                                            have h2 := sizeL_aerase_le "." ld
                                            have h3 : sizeO (none :
                                                Option Tree) +
                                                sizeO (some (Tree.dir ld)) =
                                                1 + sizeL ld := by simp
                                            omega
                                          have hvec := ih none v (jS pS k)
                                            (jD pD k) pats jS jD ffoe r'
                                            (by simpa using hszv) hcall p'
                                          exact okVector_mask_dst _ _ _ _ _
                                            hvec
      | some ts =>
          cases ts with
          | file a1 m1 sz1 =>
              cases d with
              | none =>
                  rw [diffTrees] at h
                  cases hex : anyMatch pats pD with
                  | true =>
                      rw [hex, if_pos rfl] at h
                      injection h with h
                      subst h
                      cases p <;> simp [okVector]
                  | false =>
                      rw [hex, if_neg Bool.false_ne_true] at h
                      injection h with h
                      subst h
                      cases p <;> simp [okVector]
              | some td =>
                  cases td with
                  | file a2 m2 sz2 =>
                      rw [diffTrees] at h
                      cases hex : anyMatch pats pD with
                      | true =>
                          rw [hex, if_pos rfl] at h
                          injection h with h
                          subst h
                          cases p <;> simp [okVector]
                      | false =>
                          rw [hex, if_neg Bool.false_ne_true] at h
                          split at h
                          · injection h with h
                            subst h
                            cases p <;> simp [okVector]
                          · split at h
                            · injection h with h
                              subst h
                              cases p <;> simp [okVector]
                            · injection h with h
                              subst h
                              cases p <;> simp [okVector]
                  | dir ld =>
                      rw [diffTrees] at h
                      cases hex : anyMatch pats pD with
                      | true =>
                          rw [hex, if_pos rfl] at h
                          injection h with h
                          subst h
                          cases p with
                          | nil =>
                              simp [okVector, outcome_dot_none]
                          | cons k p' =>
                              simp [okVector, outcome_dot_none]
                      | false =>
                          rw [hex, if_neg Bool.false_ne_true] at h
                          cases hff : ffoe with
                          | true => rw [hff, if_pos rfl] at h; cases h
                          | false =>
                              rw [hff, if_neg Bool.false_ne_true] at h
                              injection h with h
                              subst h
                              cases p <;>
                                simp [okVector, outcome_dot_none]
          | dir ls =>
              cases d with
              | none =>
                  rw [diffTrees] at h
                  cases hex : anyMatch pats pD with
                  | true =>
                      rw [hex, if_pos rfl] at h
                      injection h with h
                      subst h
                      simp [okVector, outcome_dot_none]
                  | false =>
                      rw [hex, if_neg Bool.false_ne_true] at h
                      cases hdot : alookup "." ls with
                      | none => rw [hdot] at h; cases h
                      | some dotS =>
                          rw [hdot] at h
                          simp only [bind, Except.bind] at h
                          cases hloop : diffLoopSrc (aerase "." ls) pS pD
                              pats jS jD ffoe with
                          | error e => rw [hloop] at h; cases h
                          | ok rs =>
                              rw [hloop] at h
                              injection h with h
                              subst h
                              cases p with
                              | nil =>
                                  simp only [outcome_built_nil, outcome_none]
                                  simp [okVector]
                              | cons k p' =>
                                  by_cases hk : k = "."
                                  · subst hk
                                    simp only [outcome_built_dot,
                                      outcome_none]
                                    simp [okVector]
                                  · simp only [outcome_built_cons _ _ _ _ hk,
                                      outcome_none, alookup_map]
                                    cases hr : alookup k rs with
                                    | none => simp [okVector]
                                    | some r =>
                                        simp only [hr, Option.map_some']
                                        rcases diffLoopSrc_lookup _ _ _ _ _ _
                                            _ _ hloop k with
                                          ⟨-, hno⟩ | ⟨v, r', hv, hr', hcall⟩
                                        · rw [hno] at hr; cases hr
                                        · rw [hr'] at hr
                                          injection hr with hr
                                          subst hr
                                          have hszv : sizeO v ≤ n := by
                                            have h1 := sizeO_alookup_le _ _ _ hv
                                            have h2 := sizeL_aerase_le "." ls
                                            have h3 : sizeO (some
                                                (Tree.dir ls)) +
                                                sizeO (none : Option Tree) =
                                                1 + sizeL ls := by simp
                                            omega
                                          have hvec := ih v none (jS pS k)
                                            (jD pD k) pats jS jD ffoe r'
                                            (by simpa using hszv) hcall p'
                                          exact okVector_mask_src _ _ _ _ _
                                            hvec
              | some td =>
                  cases td with
                  | file a2 m2 sz2 =>
                      rw [diffTrees] at h
                      cases hex : anyMatch pats pD with
                      | true =>
                          rw [hex, if_pos rfl] at h
                          injection h with h
                          subst h
                          cases p <;> simp [okVector, outcome_dot_none]
                      | false =>
                          rw [hex, if_neg Bool.false_ne_true] at h
                          cases hdot : alookup "." ls with
                          | none => rw [hdot] at h; cases h
                          | some dotS =>
                              rw [hdot] at h
                              simp only [bind, Except.bind] at h
                              cases hloop : diffLoopSrc (aerase "." ls) pS pD
                                  pats jS jD ffoe with
                              | error e => rw [hloop] at h; cases h
                              | ok rs =>
                                  rw [hloop] at h
                                  cases hff : ffoe with
                                  | true =>
                                      rw [hff] at h
                                      simp at h
                                  | false =>
                                      rw [hff] at h
                                      simp only [Bool.false_eq_true,
                                        if_false] at h
                                      injection h with h
                                      subst h
                                      cases p with
                                      | nil =>
                                          simp only [outcome_built_nil,
                                            outcome_none, outcome_file_nil]
                                          simp [okVector]
                                      | cons k p' =>
                                          by_cases hk : k = "."
                                          · subst hk
                                            simp only [outcome_built_dot,
                                              outcome_none,
                                              outcome_file_cons]
                                            simp [okVector]
                                          · simp only
                                              [outcome_built_cons _ _ _ _ hk,
                                               outcome_none,
                                               outcome_file_cons, alookup_map]
                                            cases hr : alookup k rs with
                                            | none => simp [okVector]
                                            | some r =>
                                                simp only [hr,
                                                  Option.map_some']
                                                rcases diffLoopSrc_lookup _ _
                                                    _ _ _ _ _ _ hloop k with
                                                  ⟨-, hno⟩ |
                                                  ⟨v, r', hv, hr', hcall⟩
                                                · rw [hno] at hr; cases hr
                                                · rw [hr'] at hr
                                                  injection hr with hr
                                                  subst hr
                                                  have hszv : sizeO v ≤ n := by
                                                    have h1 :=
                                                      sizeO_alookup_le _ _ _ hv
                                                    have h2 :=
                                                      sizeL_aerase_le "." ls
                                                    have h3 : sizeO (some
                                                        (Tree.dir ls)) +
                                                        sizeO (some (Tree.file
                                                          a2 m2 sz2)) =
                                                        1 + sizeL ls + 1 := by
                                                      simp
                                                    omega
                                                  have hvec := ih v none
                                                    (jS pS k) (jD pD k) pats
                                                    jS jD ffoe r'
                                                    (by simpa using hszv)
                                                    hcall p'
                                                  exact okVector_mask_src
                                                    _ _ _ _ _ hvec
                  | dir ld =>
                      rw [diffTrees] at h
                      cases hex : anyMatch pats pD with
                      | true =>
                          rw [hex, if_pos rfl] at h
                          injection h with h
                          subst h
                          simp [okVector, outcome_dot_none]
                      | false =>
                          rw [hex, if_neg Bool.false_ne_true] at h
                          cases hdot : alookup "." ls with
                          | none => rw [hdot] at h; cases h
                          | some dotS =>
                              rw [hdot] at h
                              simp only [bind, Except.bind] at h
                              cases hloop1 : diffLoopBoth (aerase "." ls) ld
                                  pS pD pats jS jD ffoe with
                              | error e => rw [hloop1] at h; cases h
                              | ok rs1 =>
                                  rw [hloop1] at h
                                  cases hdot2 : alookup "."
                                      ((aerase "." ls).foldl
                                        (fun r p => aerase p.1 r) ld) with
                                  | none => rw [hdot2] at h; cases h
                                  | some dot2 =>
                                      rw [hdot2] at h
                                      cases hloop2 : diffLoopDst (aerase "."
                                          ((aerase "." ls).foldl
                                            (fun r p => aerase p.1 r) ld))
                                          pS pD pats jS jD ffoe with
                                      | error e => rw [hloop2] at h; cases h
                                      | ok rs2 =>
                                          rw [hloop2] at h
                                          injection h with h
                                          subst h
                                          cases p with
                                          | nil =>
                                              simp only [outcome_built_nil]
                                              simp [okVector]
                                          | cons k p' =>
                                              by_cases hk : k = "."
                                              · subst hk
                                                simp only [outcome_built_dot,
                                                  outcome_none]
                                                simp [okVector]
                                              · simp only
                                                  [outcome_built_cons _ _ _ _
                                                    hk, alookup_append,
                                                   alookup_map]
                                                cases hr1 : alookup k rs1 with
                                                | some r =>
                                                    simp only [hr1,
                                                      Option.map_some']
                                                    rcases diffLoopBoth_lookup
                                                        _ _ _ _ _ _ _ _ _
                                                        hloop1 k with
                                                      ⟨-, hno⟩ |
                                                      ⟨v, pd, r', hv, hr',
                                                        hszpd, hcall⟩
                                                    · rw [hno] at hr1
                                                      cases hr1
                                                    · rw [hr'] at hr1
                                                      injection hr1 with hr1
                                                      subst hr1
                                                      have hszv : sizeO v +
                                                          sizeO pd ≤ n := by
                                                        have h1 :=
                                                          sizeO_alookup_le
                                                            _ _ _ hv
                                                        have h2 :=
                                                          sizeL_aerase_le
                                                            "." ls
                                                        have h3 : sizeO (some
                                                            (Tree.dir ls)) +
                                                            sizeO (some
                                                              (Tree.dir ld)) =
                                                            1 + sizeL ls + 1 +
                                                              sizeL ld := by
                                                          simp
                                                          omega
                                                        omega
                                                      have hvec := ih v pd
                                                        (jS pS k) (jD pD k)
                                                        pats jS jD ffoe r'
                                                        hszv hcall p'
                                                      exact hvec
                                                | none =>
                                                    simp only [hr1,
                                                      Option.map_none']
                                                    cases hr2 : alookup k
                                                        rs2 with
                                                    | none =>
                                                        simp [okVector]
                                                    | some r =>
                                                        simp only [hr2,
                                                          Option.map_some']
                                                        rcases
                                                          diffLoopDst_lookup
                                                            _ _ _ _ _ _ _ _
                                                            hloop2 k with
                                                          ⟨-, hno⟩ |
                                                          ⟨v, r', hv, hr',
                                                            hcall⟩
                                                        · rw [hno] at hr2
                                                          cases hr2
                                                        · rw [hr'] at hr2
                                                          injection hr2
                                                            with hr2
                                                          subst hr2
                                                          have hszv : sizeO v
                                                              ≤ n := by
                                                            have h1 :=
                                                              sizeO_alookup_le
                                                                _ _ _ hv
                                                            have h2 :=
                                                              sizeL_aerase_le
                                                                "."
                                                                ((aerase "."
                                                                  ls).foldl
                                                                  (fun r p =>
                                                                    aerase
                                                                      p.1 r)
                                                                  ld)
                                                            have h3 :=
                                                              sizeL_eraseFold_le
                                                                (aerase "." ls)
                                                                ld
                                                            have h4 : sizeO
                                                                (some
                                                                (Tree.dir ls))
                                                                + sizeO (some
                                                                (Tree.dir ld))
                                                                = 1 + sizeL ls
                                                                  + 1 +
                                                                  sizeL ld := by
                                                              simp
                                                              omega
                                                            omega
                                                          have hvec := ih none
                                                            v (jS pS k)
                                                            (jD pD k) pats jS
                                                            jD ffoe r'
                                                            (by simpa using
                                                              hszv) hcall p'
                                                          exact
                                                            okVector_mask_dst
                                                              _ _ _ _ _ hvec

/-- C3: for every input and every concrete path, the five trees returned by
a successful `diff_trees` run assign the path one coherent outcome of the
classification table: possibly `delete` and/or `copy` (overwrite rows),
possibly `excludedSource` and/or `excludedDestination` (exclusion rows), or
`unaccountedDestination` alone — never a path simultaneously in two
mutually exclusive partitions such as `copy` and `excludedSource`. -/
theorem c3_partition_exclusivity (s d : Option Tree) (pS pD : String)
    (pats : List String) (jS jD : String → String → String) (ffoe : Bool)
    (out : DiffOut)
    (h : diffTrees s d pS pD pats jS jD ffoe = .ok out) (p : List String) :
    okVector (outcome out.delete p) (outcome out.copy p)
      (outcome out.exSrc p) (outcome out.unDst p)
      (outcome out.exDst p) = true :=
  diff_vector_aux (sizeO s + sizeO d) s d pS pD pats jS jD ffoe out le_rfl h p

/-- C3 witness: a new source file against an absent destination, checked at
the root path. -/
theorem c3_witness :
    okVector (outcome none []) (outcome (some (.file 0 0 7)) [])
      (outcome none []) (outcome none []) (outcome none []) = true :=
  c3_partition_exclusivity (some (.file 0 0 7)) none "s" "d" []
    (fun a b => a ++ "/" ++ b) (fun a b => a ++ "/" ++ b) true
    ⟨none, some (.file 0 0 7), none, none, none⟩
    (by simp [diffTrees, anyMatch]) []

end AdbClone
